import Mathlib

/-
  Verification of the job-queue core of the book/audio generation service.

  The definitions below are a shallow embedding of the Python source:
    - app/db.py        : job store (rows, set_job_status, create_job,
                         get_next_queued_job, move_job, get_queue_stats)
    - app/eta.py       : ETA estimator (estimate_remaining_seconds)
    - app/main.py      : HTTP-layer job-control handlers (cancel/stop/resume/
                         retry/delete/move)
    - app/generator.py : run_job status writes of the pipeline stages
    - app/recommendations.py : recommend_topics_from_recent

  Timestamps are modelled as rationals (the parsed value of an ISO string);
  an unparseable string is modelled by `ISOText.invalid`.  SQLite rows are
  modelled as Lean structures, a table as a list of rows, and every SQL
  statement by the corresponding pure list transformation.
-/

namespace BookFactory

/-! Python string primitives, modelled on `List Char`. -/

/-- Characters removed by Python `str.strip()` with no argument: ASCII
whitespace, the C0 information separators, NEL and NBSP (the Unicode
whitespace relevant to this code base). -/
def pyIsSpace (c : Char) : Bool :=
  c = ' ' || c = '\t' || c = '\n' || c = '\r' || c = '\x0b' || c = '\x0c' ||
  c = '\x1c' || c = '\x1d' || c = '\x1e' || c = '\x1f' || c = '\x85' ||
  c = '\u00A0'

/-- Drop the longest prefix of characters satisfying p. -/
def stripLeft (p : Char → Bool) : List Char → List Char
  | [] => []
  | c :: cs => if p c then stripLeft p cs else c :: cs

/-- Python `s.strip(chars)`: remove characters satisfying p from both ends. -/
def pyStripBy (p : Char → Bool) (s : List Char) : List Char :=
  (stripLeft p (stripLeft p s).reverse).reverse

/-- Python `s.strip()`. -/
def pyStrip (s : List Char) : List Char := pyStripBy pyIsSpace s

/-- Python `s.strip(set)` for an explicit character set. -/
def stripCharSet (set : List Char) (s : List Char) : List Char :=
  pyStripBy (fun c => set.contains c) s

/-- Python `s.lower()` (ASCII case mapping; the identity elsewhere). -/
def lowerS (s : List Char) : List Char := s.map Char.toLower

/-- Line-boundary characters of Python `str.splitlines`. -/
def isLineBreak (c : Char) : Bool :=
  c = '\n' || c = '\r' || c = '\x0b' || c = '\x0c' || c = '\x1c' ||
  c = '\x1d' || c = '\x1e' || c = '\x85' || c = '\u2028' || c = '\u2029'

/-- Worker for `pySplitlines`; `cur` is the current line, reversed. -/
def splitlinesGo : List Char → List Char → List (List Char)
  | [], cur => [cur.reverse]
  | '\r' :: '\n' :: [], cur => [cur.reverse]
  | '\r' :: '\n' :: c :: rest, cur => cur.reverse :: splitlinesGo (c :: rest) []
  | c :: rest, cur =>
      if isLineBreak c then
        match rest with
        | [] => [cur.reverse]
        | _ => cur.reverse :: splitlinesGo rest []
      else splitlinesGo rest (c :: cur)

/-- Python `s.splitlines()`: no trailing empty line, `\r\n` is one break. -/
def pySplitlines : List Char → List (List Char)
  | [] => []
  | c :: rest => splitlinesGo (c :: rest) []

/-- Status values written by the application (app/db.py, app/main.py). -/
inductive Status
  | queued
  | running
  | completed
  | failed
  | stopped
  | cancelled
  deriving DecidableEq, Repr

/-- One row of the `jobs` table (schema in app/db.py, init_db).
Timestamps hold the parsed value of the stored ISO string; `queuePosition`
is nullable in the schema (legacy rows), hence `Option Int`. -/
structure Job where
  id : Nat
  topic : String
  model : String
  jobType : String
  parentId : Option Nat
  sourcePath : Option String
  status : Status
  progress : Rat
  stage : String
  createdAt : Rat
  updatedAt : Rat
  startedAt : Option Rat
  error : Option String
  outputPath : Option String
  queuePosition : Option Int
  deriving DecidableEq, Repr

/-- The keyword arguments of `set_job_status` (app/db.py:247).  A `none`
field is a Python `None` argument: the corresponding column is not touched. -/
structure StatusUpdate where
  status : Option Status := none
  stage : Option String := none
  progress : Option Rat := none
  error : Option String := none
  outputPath : Option String := none
  deriving DecidableEq, Repr

/-- Effect of `set_job_status` (app/db.py:247-286) on a single row: each
non-None argument is applied; `status == "running"` additionally executes
`started_at = COALESCE(started_at, now)`; `updated_at` is always set. -/
def applyStatusUpdate (u : StatusUpdate) (now : Rat) (j : Job) : Job :=
  let j1 : Job :=
    match u.status with
    | none => j
    | some s =>
        if s = Status.running then
          { j with
              status := s,
              startedAt := match j.startedAt with
                | some t => some t
                | none => some now }
        else
          { j with status := s }
  let j2 : Job := match u.stage with
    | none => j1
    | some st => { j1 with stage := st }
  let j3 : Job := match u.progress with
    | none => j2
    | some p => { j2 with progress := p }
  let j4 : Job := match u.error with
    | none => j3
    | some e => { j3 with error := some e }
  let j5 : Job := match u.outputPath with
    | none => j4
    | some op => { j4 with outputPath := some op }
  { j5 with updatedAt := now }

/-- The `jobs` table. -/
abbrev Store := List Job

/-- SELECT * FROM jobs WHERE id = ? (first match). -/
def getJob (s : Store) (id : Nat) : Option Job :=
  s.find? (fun j => j.id = id)

/-- UPDATE jobs SET ... WHERE id = ? as issued by `set_job_status`. -/
def set_job_status (s : Store) (id : Nat) (u : StatusUpdate) (now : Rat) : Store :=
  s.map (fun j => if j.id = id then applyStatusUpdate u now j else j)

/-- SELECT COALESCE(MAX(queue_position), 0) FROM jobs (app/db.py:195-199). -/
def maxQueuePosition (s : Store) : Option Int :=
  s.foldl
    (fun acc j =>
      match acc, j.queuePosition with
      | none, p => p
      | some a, none => some a
      | some a, some p => some (max a p))
    none

/-- Row inserted by `create_job` (app/db.py:183-244): queued, progress 0,
stage "queued", position `max existing + 1`, topic stripped. -/
def create_job (s : Store) (id : Nat) (topic model jobType : String)
    (parentId : Option Nat) (sourcePath : Option String) (now : Rat) : Store :=
  s ++ [{ id := id
          topic := String.mk (pyStrip topic.data)
          model := model
          jobType := jobType
          parentId := parentId
          sourcePath := sourcePath
          status := Status.queued
          progress := 0
          stage := "queued"
          createdAt := now
          updatedAt := now
          startedAt := none
          error := none
          outputPath := none
          queuePosition := some ((maxQueuePosition s).getD 0 + 1) }]

/-! HTTP-layer job-control handlers (app/main.py).  Each returns `none`
when the handler raises an HTTPException (store untouched) and
`some s'` with the updated store otherwise. -/

/-- POST /jobs/id/cancel (app/main.py:268-279): rejected for
completed/failed/cancelled, otherwise status := cancelled. -/
def cancel_job (s : Store) (id : Nat) (now : Rat) : Option Store :=
  match getJob s id with
  | none => none
  | some j =>
      if j.status = Status.completed ∨ j.status = Status.failed ∨
          j.status = Status.cancelled then
        none
      else
        some (set_job_status s id
          { status := some Status.cancelled, stage := some "cancelled" } now)

/-- POST /jobs/id/stop (app/main.py:282-291): only running jobs. -/
def stop_job (s : Store) (id : Nat) (now : Rat) : Option Store :=
  match getJob s id with
  | none => none
  | some j =>
      if j.status = Status.running then
        some (set_job_status s id
          { status := some Status.stopped, stage := some "stopped" } now)
      else
        none

/-- POST /jobs/id/resume (app/main.py:294-312): only stopped jobs; calls
`set_job_status(status="queued", stage="queued", progress=0.0, error=None,
output_path=None)` — the two None arguments are not applied. -/
def resume_job (s : Store) (id : Nat) (now : Rat) : Option Store :=
  match getJob s id with
  | none => none
  | some j =>
      if j.status = Status.stopped then
        some (set_job_status s id
          { status := some Status.queued, stage := some "queued",
            progress := some 0, error := none, outputPath := none } now)
      else
        none

/-- POST /jobs/id/retry (app/main.py:315-335): only failed/cancelled jobs;
same `set_job_status` call as resume. -/
def retry_job (s : Store) (id : Nat) (now : Rat) : Option Store :=
  match getJob s id with
  | none => none
  | some j =>
      if j.status = Status.failed ∨ j.status = Status.cancelled then
        some (set_job_status s id
          { status := some Status.queued, stage := some "queued",
            progress := some 0, error := none, outputPath := none } now)
      else
        none

/-- POST /jobs/id/delete (app/main.py:338-348) plus `delete_job`
(app/db.py:830): forbidden while running, otherwise the row is removed. -/
def delete_job (s : Store) (id : Nat) : Option Store :=
  match getJob s id with
  | none => none
  | some j =>
      if j.status = Status.running then none
      else some (s.filter (fun k => ¬ k.id = id))

/-! ETA estimator (app/eta.py). -/

/-- An ISO timestamp string, abstracted to whether `datetime.fromisoformat`
parses it and, if so, to the instant (in seconds) it denotes. -/
inductive ISOText
  | invalid
  | valid (t : Rat)
  deriving DecidableEq, Repr

/-- Translation of `parse_iso` (app/eta.py:7-11): the parsed instant, or
`none` when parsing raises ValueError. -/
def parse_iso : ISOText → Option Rat
  | ISOText.invalid => none
  | ISOText.valid t => some t

/-- Python `int()` on a float/rational: truncation toward zero. -/
def pyInt (q : Rat) : Int :=
  if q < 0 then ⌈q⌉ else ⌊q⌋

/-- Reference-time resolution of app/eta.py:24: `parse_iso(started_at) if
started_at else parse_iso(created_at)`. -/
def refParse (created_at : ISOText) (started_at : Option ISOText) : Option Rat :=
  match started_at with
  | some s => parse_iso s
  | none => parse_iso created_at

/-- Translation of `estimate_remaining_seconds` (app/eta.py:14-42); `now`
is the current instant, `started_at = none` covers both a missing and an
empty (falsy) string. -/
def estimate_remaining_seconds (created_at : ISOText) (progress : Rat)
    (started_at : Option ISOText) (now : Rat) : Option Int :=
  if progress ≤ 0 then none
  else
    match refParse created_at started_at with
    | none => none
    | some created =>
        let elapsed := now - created
        if elapsed < 0 then none
        else
          let remaining := elapsed * (1 / progress - 1)
          if remaining < 0 then none
          else some (pyInt remaining)

/-! Scheduler selection (app/db.py:364-395, get_next_queued_job). -/

/-- CASE WHEN job_type = 'recommend_topics' THEN 1 ELSE 0 END. -/
def recommendFlag (j : Job) : Nat :=
  if j.jobType = "recommend_topics" then 1 else 0

/-- Ascending comparison on nullable queue positions; sqlite sorts NULL
before every value. -/
def posLt : Option Int → Option Int → Bool
  | none, none => false
  | none, some _ => true
  | some _, none => false
  | some a, some b => a < b

/-- Strict "ORDER BY recommend-flag ASC, queue_position ASC" comparison. -/
def selBefore (a b : Job) : Bool :=
  decide (recommendFlag a < recommendFlag b) ||
    (decide (recommendFlag a = recommendFlag b) &&
      posLt a.queuePosition b.queuePosition)

/-- Accumulate the best row so far (first row wins ties, as LIMIT 1 on a
stable scan). -/
def selStep (acc : Option Job) (j : Job) : Option Job :=
  match acc with
  | none => some j
  | some b => if selBefore j b then some j else some b

/-- Translation of `get_next_queued_job`: the ORDER BY ... LIMIT 1 query,
as the minimum of the queued rows under `selBefore`. -/
def get_next_queued_job (s : Store) : Option Job :=
  (s.filter (fun j => j.status = Status.queued)).foldl selStep none

/-! Queue reordering (app/db.py:444-489 move_job, app/main.py:351-361). -/

/-- The two accepted directions (the endpoint rejects anything else). -/
inductive Direction
  | up
  | down
  deriving DecidableEq, Repr

/-- WHERE clause of the neighbor query: queued, and position strictly on
the requested side of `pos` (a NULL position satisfies neither comparison). -/
def neighborCand (dir : Direction) (pos : Int) (j : Job) : Bool :=
  (j.status == Status.queued) &&
    match j.queuePosition with
    | none => false
    | some p =>
        match dir with
        | Direction.up => decide (p < pos)
        | Direction.down => decide (pos < p)

/-- ORDER BY queue_position DESC (up) / ASC (down): is p before q. -/
def neighborBetter (dir : Direction) (p q : Int) : Bool :=
  match dir with
  | Direction.up => decide (q < p)
  | Direction.down => decide (p < q)

/-- Accumulate the best neighbor candidate so far. -/
def nbStep (dir : Direction) (pos : Int) (acc : Option (Nat × Int)) (j : Job) :
    Option (Nat × Int) :=
  if neighborCand dir pos j then
    match j.queuePosition, acc with
    | some p, none => some (j.id, p)
    | some p, some (bid, bp) =>
        if neighborBetter dir p bp then some (j.id, p) else some (bid, bp)
    | none, _ => acc
  else acc

/-- The (id, position) of the row returned by the neighbor LIMIT 1 query. -/
def findNeighbor (s : Store) (dir : Direction) (pos : Int) : Option (Nat × Int) :=
  s.foldl (nbStep dir pos) none

/-- Translation of db.move_job: look up the row, bail out if missing or
position NULL, find the adjacent queued neighbor, swap the two positions. -/
def move_job (s : Store) (id : Nat) (dir : Direction) : Store :=
  match getJob s id with
  | none => s
  | some j =>
      match j.queuePosition with
      | none => s
      | some pos =>
          match findNeighbor s dir pos with
          | none => s
          | some (nbid, nbp) =>
              s.map (fun k =>
                if k.id = id then { k with queuePosition := some nbp }
                else if k.id = nbid then { k with queuePosition := some pos }
                else k)

/-- POST /jobs/id/move (app/main.py:351-361): 404 when missing, 400 unless
the job is queued, then delegates to db.move_job. -/
def move_endpoint (s : Store) (id : Nat) (dir : Direction) : Option Store :=
  match getJob s id with
  | none => none
  | some j =>
      if j.status = Status.queued then some (move_job s id dir) else none

/-! Aggregate queue statistics (app/db.py:717-803, get_queue_stats). -/

/-- The columns the stats query reads from each row. -/
structure QueueRow where
  status : Status
  progress : Rat
  createdAt : ISOText
  updatedAt : ISOText
  startedAt : Option ISOText
  deriving DecidableEq, Repr

/-- clamp(progress, 0, 1) as in `max(0.0, min(progress, 1.0))`. -/
def clamp01 (p : Rat) : Rat := max 0 (min p 1)

/-- Accumulator of the row loop in get_queue_stats. -/
structure StatsAcc where
  completed : Nat := 0
  running : Nat := 0
  queued : Nat := 0
  failed : Nat := 0
  stopped : Nat := 0
  cancelled : Nat := 0
  progressSum : Rat := 0
  completedDurations : List Rat := []
  runningEta : Option Int := none
  deriving Repr

/-- One iteration of the loop over rows (app/db.py:736-774). -/
def statsStep (now : Rat) (acc : StatsAcc) (r : QueueRow) : StatsAcc :=
  match r.status with
  | Status.completed =>
      let acc1 := { acc with
        completed := acc.completed + 1, progressSum := acc.progressSum + 1 }
      match parse_iso r.createdAt, parse_iso r.updatedAt with
      | some c, some u =>
          let d := u - c
          if 0 < d then
            { acc1 with completedDurations := acc1.completedDurations ++ [d] }
          else acc1
      | _, _ => acc1
  | Status.running =>
      let acc1 := { acc with
        running := acc.running + 1,
        progressSum := acc.progressSum + clamp01 r.progress }
      match acc1.runningEta with
      | some _ => acc1
      | none =>
          match estimate_remaining_seconds r.createdAt r.progress r.startedAt now with
          | some eta => { acc1 with runningEta := some eta }
          | none => acc1
  | Status.failed =>
      { acc with failed := acc.failed + 1, progressSum := acc.progressSum + 1 }
  | Status.stopped =>
      { acc with stopped := acc.stopped + 1, progressSum := acc.progressSum + 1 }
  | Status.cancelled =>
      { acc with cancelled := acc.cancelled + 1, progressSum := acc.progressSum + 1 }
  | Status.queued =>
      { acc with
        queued := acc.queued + 1,
        progressSum := acc.progressSum + clamp01 r.progress }

/-- The dictionary returned by get_queue_stats (text field omitted). -/
structure QueueStats where
  total : Nat
  completed : Nat
  running : Nat
  queued : Nat
  failed : Nat
  stopped : Nat
  cancelled : Nat
  percentComplete : Rat
  totalEtaSeconds : Option Int
  deriving DecidableEq, Repr

/-- Translation of get_queue_stats: the loop, then average duration, the
avg-based fallback for the running ETA, and the total-ETA combination. -/
def get_queue_stats (rows : List QueueRow) (now : Rat) : QueueStats :=
  let acc := rows.foldl (statsStep now) {}
  let total := rows.length
  let percent : Rat := if total = 0 then 0 else acc.progressSum / total
  let avg : Option Rat :=
    if acc.completedDurations.length = 0 then none
    else some (acc.completedDurations.sum / acc.completedDurations.length)
  let runningEta : Option Int :=
    match acc.runningEta with
    | some e => some e
    | none =>
        if 0 < acc.running then
          match avg with
          | some a => if a = 0 then none else some (pyInt a)
          | none => none
        else none
  let totalEta : Option Int :=
    if runningEta.isSome || avg.isSome then
      some (runningEta.getD 0 +
        match avg with
        | some a => pyInt (a * acc.queued)
        | none => 0)
    else none
  { total := total
    completed := acc.completed
    running := acc.running
    queued := acc.queued
    failed := acc.failed
    stopped := acc.stopped
    cancelled := acc.cancelled
    percentComplete := percent
    totalEtaSeconds := totalEta }

/-! Topic recommendation (app/recommendations.py). -/

/-- A Python JSON value as far as `_extract_json_array` inspects one:
a string, a list, or anything else. -/
inductive PyJson
  | str (s : List Char)
  | list (items : List PyJson)
  | other
  deriving Repr

/-- First index of c, or none (Python str.find, -1 encoded as none). -/
def findChar (c : Char) (s : List Char) : Option Nat :=
  s.findIdx? (fun x => x = c)

/-- Last index of c, or none (Python str.rfind). -/
def rfindChar (c : Char) (s : List Char) : Option Nat :=
  match (s.reverse).findIdx? (fun x => x = c) with
  | none => none
  | some k => some (s.length - 1 - k)

/-- Translation of `_extract_json_array` (app/recommendations.py:8-25);
`loads` stands for `json.loads` (stdlib collaborator), `none` covers the
JSONDecodeError it may raise; the function result `none` covers both that
and the ValueError branches. -/
def extract_json_array (loads : List Char → Option PyJson) (text : List Char) :
    Option (List (List Char)) :=
  let cleaned := pyStrip text
  let cleaned :=
    if ("```".data).isPrefixOf cleaned then
      let c2 := stripCharSet [Char.ofNat 96] cleaned
      if ("json".data).isPrefixOf (lowerS c2) then pyStrip (c2.drop 4) else c2
    else cleaned
  match findChar '[' cleaned, rfindChar ']' cleaned with
  | some st, some en =>
      if en ≤ st then none
      else
        match loads ((cleaned.drop st).take (en + 1 - st)) with
        | some (PyJson.list items) =>
            some (items.filterMap (fun it =>
              match it with
              | PyJson.str s => if (pyStrip s).isEmpty then none else some (pyStrip s)
              | _ => none))
        | _ => none
  | _, _ => none

/-- One entry of the recent-jobs summary; only the topic is consulted
(`item.get("topic", "")`; a missing key behaves like the empty string). -/
structure RecentJob where
  topic : List Char
  deriving DecidableEq, Repr

/-- The dedup/limit loop at the end of `recommend_topics_from_recent`
(app/recommendations.py:63-73): `seen` holds lowered keys, `k` the number
of topics already kept; the loop breaks right after the append that
reaches `limit`. -/
def dedupeGo (limit : Int) : List (List Char) → List (List Char) → Nat →
    List (List Char)
  | [], _, _ => []
  | t :: rest, seen, k =>
      if seen.contains (lowerS t) then dedupeGo limit rest seen k
      else if limit ≤ (k + 1 : Int) then [t]
      else t :: dedupeGo limit rest (lowerS t :: seen) (k + 1)

/-- Translation of `recommend_topics_from_recent` (app/recommendations.py:
28-73); `text` is the backend reply returned by `generate_text`. -/
def recommend_topics_from_recent (loads : List Char → Option PyJson)
    (recent_jobs : List RecentJob) (text : List Char) (limit : Int) :
    List (List Char) :=
  if recent_jobs.isEmpty then []
  else
    let recent_topics :=
      (recent_jobs.filter (fun r => ¬ r.topic.isEmpty)).map (fun r => pyStrip r.topic)
    let topics : List (List Char) :=
      match extract_json_array loads text with
      | some ts => ts
      | none =>
          (((pySplitlines text).filter (fun l => ¬ (pyStrip l).isEmpty)).map
            (fun l => stripCharSet ['-', '•', ' ', '\t'] l)).filter
            (fun l => ¬ l.isEmpty)
    dedupeGo limit topics (recent_topics.map lowerS) 0

/-! Status writes of a pipeline run (app/generator.py, run_job) at the
granularity at which they hit the store, plus the step relation of the
whole system. -/

/-- Entry of every run_job branch: `set_job_status(status="running",
stage=..., progress=...)`.  The runner invokes run_job only on jobs
returned by get_next_queued_job, hence on queued jobs (app/main.py:53-74). -/
def run_start (s : Store) (id : Nat) (stage : String) (p : Rat) (now : Rat) :
    Option Store :=
  match getJob s id with
  | none => none
  | some j =>
      if j.status = Status.queued then
        some (set_job_status s id
          { status := some Status.running, stage := some stage, progress := some p } now)
      else none

/-- Mid-run progress writes of the book pipeline (stage/progress only,
e.g. app/generator.py:513 and 565-570). -/
def run_progress (s : Store) (id : Nat) (stage : String) (p : Rat) (now : Rat) :
    Store :=
  set_job_status s id { stage := some stage, progress := some p } now

/-- Success epilogue of a run: status completed, progress 1.0, and an
output path for every job type except recommend_topics (which stores its
result in the cache instead, app/generator.py:406-409).  While the run is
active its job is running, or cancelled/stopped when a control handler
intervened after the last cooperative checkpoint. -/
def run_complete (s : Store) (id : Nat) (path : Option String) (now : Rat) :
    Option Store :=
  match getJob s id with
  | none => none
  | some j =>
      if j.status = Status.running ∨ j.status = Status.cancelled ∨
          j.status = Status.stopped then
        some (set_job_status s id
          { status := some Status.completed, stage := some "completed",
            progress := some 1, outputPath := path } now)
      else none

/-- Failure epilogue of a run: status failed, progress 1.0, the error
message stored (str(e) or repr(e), never SQL NULL). -/
def run_fail (s : Store) (id : Nat) (msg : String) (now : Rat) : Option Store :=
  match getJob s id with
  | none => none
  | some j =>
      if j.status = Status.running ∨ j.status = Status.cancelled ∨
          j.status = Status.stopped then
        some (set_job_status s id
          { status := some Status.failed, stage := some "failed",
            progress := some 1, error := some msg } now)
      else none

/-- One store operation of the system: creation (fresh uuid), the
job-control handlers, reordering, deletion, and the writes of a pipeline
run. -/
inductive Step : Store → Store → Prop
  | create (s : Store) (id : Nat) (topic model jobType : String)
      (parentId : Option Nat) (sourcePath : Option String) (now : Rat)
      (hfresh : ∀ j ∈ s, j.id ≠ id) :
      Step s (create_job s id topic model jobType parentId sourcePath now)
  | cancel (s : Store) (id : Nat) (now : Rat) (s' : Store)
      (h : cancel_job s id now = some s') : Step s s'
  | stop (s : Store) (id : Nat) (now : Rat) (s' : Store)
      (h : stop_job s id now = some s') : Step s s'
  | resume (s : Store) (id : Nat) (now : Rat) (s' : Store)
      (h : resume_job s id now = some s') : Step s s'
  | retry (s : Store) (id : Nat) (now : Rat) (s' : Store)
      (h : retry_job s id now = some s') : Step s s'
  | move (s : Store) (id : Nat) (dir : Direction) (s' : Store)
      (h : move_endpoint s id dir = some s') : Step s s'
  | del (s : Store) (id : Nat) (s' : Store)
      (h : delete_job s id = some s') : Step s s'
  | runStart (s : Store) (id : Nat) (stage : String) (p now : Rat) (s' : Store)
      (h : run_start s id stage p now = some s') : Step s s'
  | runProgress (s : Store) (id : Nat) (stage : String) (p now : Rat) :
      Step s (run_progress s id stage p now)
  | runComplete (s : Store) (id : Nat) (path : Option String) (now : Rat) (s' : Store)
      (h : run_complete s id path now = some s') : Step s s'
  | runFail (s : Store) (id : Nat) (msg : String) (now : Rat) (s' : Store)
      (h : run_fail s id msg now = some s') : Step s s'

/-- Stores reachable from the empty table through system operations. -/
def Reachable (s : Store) : Prop :=
  Relation.ReflTransGen Step [] s

/-! Specification-side combinators the theorems compare the code against. -/

/-- Queue positions of the queued rows (NULLs dropped). -/
def queuedPosList (s : Store) : List Int :=
  (s.filter (fun j => j.status = Status.queued)).filterMap Job.queuePosition

/-- Transposition of the two swapped position values. -/
def swapPos (pos nbp p : Int) : Int :=
  if p = pos then nbp else if p = nbp then pos else p

/-- Number of queued rows. -/
def queuedCount (rows : List QueueRow) : Nat :=
  (rows.filter (fun r => r.status = Status.queued)).length

/-- Number of running rows. -/
def runningCount (rows : List QueueRow) : Nat :=
  (rows.filter (fun r => r.status = Status.running)).length

/-- Positive parsed durations (updated - created) of the completed rows. -/
def completedDurList (rows : List QueueRow) : List Rat :=
  rows.filterMap (fun r =>
    match r.status, parse_iso r.createdAt, parse_iso r.updatedAt with
    | Status.completed, some c, some u => if 0 < u - c then some (u - c) else none
    | _, _, _ => none)

/-- Mean of the positive completed durations, none when there are none. -/
def avgCompletedDuration (rows : List QueueRow) : Option Rat :=
  if (completedDurList rows).length = 0 then none
  else some ((completedDurList rows).sum / (completedDurList rows).length)

/-- ETA of the first running row that yields one. -/
def firstRunningEta (rows : List QueueRow) (now : Rat) : Option Int :=
  (rows.filter (fun r => r.status = Status.running)).findSome?
    (fun r => estimate_remaining_seconds r.createdAt r.progress r.startedAt now)

/-- The running ETA after the average-duration fallback of
app/db.py:782-783. -/
def effectiveRunningEta (rows : List QueueRow) (now : Rat) : Option Int :=
  match firstRunningEta rows now with
  | some e => some e
  | none =>
      if 0 < runningCount rows then
        match avgCompletedDuration rows with
        | some a => if a = 0 then none else some (pyInt a)
        | none => none
      else none

/-- Store invariant: ids are unique (uuids), a row with an output path is
completed, and a failed row carries an error message. -/
def StoreInv (s : Store) : Prop :=
  (s.map Job.id).Nodup ∧
  ∀ j ∈ s, (j.outputPath ≠ none → j.status = Status.completed) ∧
    (j.status = Status.failed → j.error ≠ none)

/-! Concrete test fixtures for the counterexample and witness theorems. -/

/-- A template row for fixtures. -/
def baseJob : Job :=
  { id := 1, topic := "t", model := "m", jobType := "book", parentId := none,
    sourcePath := none, status := Status.queued, progress := 0,
    stage := "queued", createdAt := 0, updatedAt := 0, startedAt := none,
    error := none, outputPath := none, queuePosition := some 1 }

/-- A failed job carrying an error message. -/
def c1Job : Job :=
  { baseJob with
    status := Status.failed, progress := 1, stage := "failed",
    updatedAt := 3, startedAt := some 1, error := some "boom" }

/-- A stopped job (paused mid-run). -/
def c8Job : Job :=
  { baseJob with
    id := 2, status := Status.stopped, progress := 0,
    stage := "stopped", startedAt := some 1, queuePosition := some 2 }

/-- Store after creating one book job in an empty store. -/
def c3Mid : Store :=
  create_job [] 1 "quantum computing" "m" "book" none none 0

/-- Store after cancelling that job. -/
def c3Store : Store :=
  set_job_status c3Mid 1
    { status := some Status.cancelled, stage := some "cancelled" } 1

/-- The single row of c3Store. -/
def c3Job0 : Job := (getJob c3Store 1).getD baseJob

/-- Stats rows: two completed jobs of durations 1 and 2, two queued jobs. -/
def c9CexRows : List QueueRow :=
  [{ status := Status.completed, progress := 1, createdAt := ISOText.valid 0,
     updatedAt := ISOText.valid 1, startedAt := none },
   { status := Status.completed, progress := 1, createdAt := ISOText.valid 0,
     updatedAt := ISOText.valid 2, startedAt := none },
   { status := Status.queued, progress := 0, createdAt := ISOText.valid 0,
     updatedAt := ISOText.valid 0, startedAt := none },
   { status := Status.queued, progress := 0, createdAt := ISOText.valid 0,
     updatedAt := ISOText.valid 0, startedAt := none }]

/-- Stats rows of the worked example in the spec: one completed job of
duration 1200, one running job at progress 0.5 started at 0 (observed at
600), two queued jobs. -/
def c9ExRows : List QueueRow :=
  [{ status := Status.completed, progress := 1, createdAt := ISOText.valid 0,
     updatedAt := ISOText.valid 1200, startedAt := none },
   { status := Status.running, progress := (1 : Rat)/2,
     createdAt := ISOText.valid 0, updatedAt := ISOText.valid 0,
     startedAt := some (ISOText.valid 0) },
   { status := Status.queued, progress := 0, createdAt := ISOText.valid 0,
     updatedAt := ISOText.valid 0, startedAt := none },
   { status := Status.queued, progress := 0, createdAt := ISOText.valid 0,
     updatedAt := ISOText.valid 0, startedAt := none }]

/-- A json.loads stand-in that always fails (never consulted by the
fixture input, which contains no bracket). -/
def noLoads : List Char → Option PyJson := fun _ => none

/-- Recent job whose topic ends in a non-breaking space. -/
def c10Recent : RecentJob := { topic := "a\u00A0".data }

/-- Backend reply equal to that topic. -/
def c10Text : List Char := "a\u00A0".data

/-- A three-job queued store for the move witness. -/
def mvStore : Store :=
  [baseJob,
   { baseJob with id := 2, queuePosition := some 2 },
   { baseJob with id := 3, queuePosition := some 3 }]

/-- The failed job after the retry handler ran at time 7: requeued, but
with the old error message still stored. -/
def c1After : Job :=
  { c1Job with
    status := Status.queued, stage := "queued", progress := 0, updatedAt := 7 }

/-- The stopped job after the cancel handler ran at time 9. -/
def c8After : Job :=
  { c8Job with
    status := Status.cancelled, stage := "cancelled", updatedAt := 9 }

/-! Helper lemmas (shared across the claim theorems). -/

/-- Field-by-field description of one set_job_status row update. -/
theorem applyStatusUpdate_eq (u : StatusUpdate) (now : Rat) (j : Job) :
    applyStatusUpdate u now j =
      { j with
        status := u.status.getD j.status,
        stage := u.stage.getD j.stage,
        progress := u.progress.getD j.progress,
        error := match u.error with | some e => some e | none => j.error,
        outputPath := match u.outputPath with | some p => some p | none => j.outputPath,
        startedAt := if u.status = some Status.running ∧ j.startedAt = none
          then some now else j.startedAt,
        updatedAt := now } := by
  rcases u with ⟨us, ust, up, ue, uo⟩
  rcases us with _ | s
  · cases ust <;> cases up <;> cases ue <;> cases uo <;>
      simp [applyStatusUpdate]
  · by_cases hs : s = Status.running
    · subst hs
      rcases hsa : j.startedAt with _ | t <;>
        cases ust <;> cases up <;> cases ue <;> cases uo <;>
          simp [applyStatusUpdate, hsa]
    · cases ust <;> cases up <;> cases ue <;> cases uo <;>
        simp [applyStatusUpdate, hs]

theorem applyStatusUpdate_id (u : StatusUpdate) (now : Rat) (j : Job) :
    (applyStatusUpdate u now j).id = j.id := by
  rw [applyStatusUpdate_eq]

theorem getJob_eq_some {s : Store} {id : Nat} {j : Job}
    (h : getJob s id = some j) : j ∈ s ∧ j.id = id := by
  refine ⟨List.mem_of_find?_eq_some h, ?_⟩
  have := List.find?_some h
  simpa using this

theorem getJob_of_mem {s : Store} (hids : (s.map Job.id).Nodup) {j : Job}
    (hj : j ∈ s) : getJob s j.id = some j := by
  induction s with
  | nil => cases hj
  | cons a rest ih =>
      rcases List.mem_cons.mp hj with rfl | hmem
      · simp [getJob]
      · have hne : a.id ≠ j.id := by
          intro he
          have : j.id ∈ rest.map Job.id := List.mem_map_of_mem Job.id hmem
          rw [List.map_cons, List.nodup_cons] at hids
          exact hids.1 (he ▸ this)
        have ht : getJob rest j.id = some j := by
          rw [List.map_cons, List.nodup_cons] at hids
          exact ih hids.2 hmem
        simpa [getJob, List.find?_cons, hne] using ht

theorem getJob_unique {s : Store} (hids : (s.map Job.id).Nodup) {j k : Job}
    (hj : getJob s j.id = some j) (hk : k ∈ s) (hid : k.id = j.id) : k = j := by
  have := getJob_of_mem hids hk
  rw [hid, hj] at this
  exact (Option.some_inj.mp this).symm

theorem mem_set_job_status {s : Store} {id : Nat} {u : StatusUpdate} {now : Rat}
    {k' : Job} (h : k' ∈ set_job_status s id u now) :
    ∃ k ∈ s, k' = if k.id = id then applyStatusUpdate u now k else k := by
  rcases List.mem_map.mp h with ⟨k, hk, he⟩
  exact ⟨k, hk, he.symm⟩

theorem map_id_set_job_status (s : Store) (id : Nat) (u : StatusUpdate)
    (now : Rat) : (set_job_status s id u now).map Job.id = s.map Job.id := by
  unfold set_job_status
  rw [List.map_map]
  apply List.map_congr_left
  intro j _
  by_cases hj : j.id = id <;> simp [hj, applyStatusUpdate_id]

theorem getJob_set_job_status (s : Store) (id : Nat) (u : StatusUpdate)
    (now : Rat) :
    getJob (set_job_status s id u now) id =
      (getJob s id).map (applyStatusUpdate u now) := by
  induction s with
  | nil => rfl
  | cons a rest ih =>
      by_cases ha : a.id = id
      · simp [getJob, set_job_status, List.find?_cons, ha, applyStatusUpdate_id]
      · simp only [set_job_status, List.map_cons, if_neg ha] at *
        simp only [getJob, List.find?_cons] at *
        simp [ha, ih]

/-! Claim theorems. -/

/-- C5: estimate_remaining returns null when progress ≤ 0, when the
reference timestamp does not parse, or when elapsed time is negative;
otherwise it returns floor(elapsed * (1/progress − 1)), and null if that
quantity is negative; progress 0.5 with elapsed 600 yields exactly 600. -/
theorem estimate_remaining_seconds_spec (c : ISOText) (p : Rat)
    (st : Option ISOText) (now : Rat) :
    (p ≤ 0 → estimate_remaining_seconds c p st now = none) ∧
    (refParse c st = none → estimate_remaining_seconds c p st now = none) ∧
    (∀ t, refParse c st = some t → now - t < 0 →
        estimate_remaining_seconds c p st now = none) ∧
    (∀ t, 0 < p → refParse c st = some t → 0 ≤ now - t →
        estimate_remaining_seconds c p st now =
          if (now - t) * (1 / p - 1) < 0 then none
          else some ⌊(now - t) * (1 / p - 1)⌋) ∧
    estimate_remaining_seconds (ISOText.valid 0) (1 / 2) none 600 = some 600 := by
  refine ⟨?_, ?_, ?_, ?_, ?_⟩
  · intro hp
    simp [estimate_remaining_seconds, hp]
  · intro hr
    unfold estimate_remaining_seconds
    rw [hr]
    split <;> rfl
  · intro t ht hneg
    unfold estimate_remaining_seconds
    rw [ht]
    by_cases hp : p ≤ 0
    · simp [hp]
    · simp [hp, hneg]
  · intro t hp ht hel
    unfold estimate_remaining_seconds
    rw [ht, if_neg (not_le.mpr hp)]
    rw [one_div]
    by_cases hrem : (now - t) * (p⁻¹ - 1) < 0
    · simp [not_lt.mpr hel, hrem]
    · simp [not_lt.mpr hel, hrem, pyInt]
  · norm_num [estimate_remaining_seconds, refParse, parse_iso, pyInt]

/-- C5 witness: the theorem applied to the four concrete situations it
covers (zero progress, unparseable reference, future reference, the
0.5/600 example). -/
theorem estimate_remaining_seconds_spec_witness :
    estimate_remaining_seconds (ISOText.valid 0) 0 none 600 = none ∧
    estimate_remaining_seconds ISOText.invalid (1 / 2) none 600 = none ∧
    estimate_remaining_seconds (ISOText.valid 700) (1 / 2) none 600 = none ∧
    estimate_remaining_seconds (ISOText.valid 0) (1 / 2) none 600 =
      if ((600 : Rat) - 0) * (1 / (1 / 2 : Rat) - 1) < 0 then none
      else some ⌊((600 : Rat) - 0) * (1 / (1 / 2 : Rat) - 1)⌋ :=
  ⟨(estimate_remaining_seconds_spec (ISOText.valid 0) 0 none 600).1 le_rfl,
   (estimate_remaining_seconds_spec ISOText.invalid (1 / 2) none 600).2.1 rfl,
   (estimate_remaining_seconds_spec (ISOText.valid 700) (1 / 2) none 600).2.2.1
     700 rfl (by norm_num),
   (estimate_remaining_seconds_spec (ISOText.valid 0) (1 / 2) none 600).2.2.2.1
     0 (by norm_num) rfl (by norm_num)⟩

/-- C7: the first set_status(running) on a job with unset started_at sets
it to the call time, and a second set_status(running) leaves it unchanged. -/
theorem started_at_first_write_wins (j : Job) (u1 u2 : StatusUpdate)
    (n1 n2 : Rat) (h0 : j.startedAt = none)
    (h1 : u1.status = some Status.running)
    (_h2 : u2.status = some Status.running) :
    (applyStatusUpdate u1 n1 j).startedAt = some n1 ∧
    (applyStatusUpdate u2 n2 (applyStatusUpdate u1 n1 j)).startedAt =
      (applyStatusUpdate u1 n1 j).startedAt := by
  have e1 : (applyStatusUpdate u1 n1 j).startedAt = some n1 := by
    rw [applyStatusUpdate_eq]
    simp [h1, h0]
  refine ⟨e1, ?_⟩
  rw [applyStatusUpdate_eq]
  simp [e1]

/-- C7 witness: two concrete running updates at times 5 and 9. -/
theorem started_at_first_write_wins_witness :
    (applyStatusUpdate { status := some Status.running } 5 baseJob).startedAt
      = some 5 ∧
    (applyStatusUpdate { status := some Status.running } 9
        (applyStatusUpdate { status := some Status.running } 5 baseJob)).startedAt =
      (applyStatusUpdate { status := some Status.running } 5 baseJob).startedAt :=
  started_at_first_write_wins baseJob _ _ 5 9 rfl rfl rfl

/-- C2 counterexample: a call passing only status="running" on a job whose
started_at is unset also changes started_at, which is not among the five
updatable fields and not updated_at; so "every other field is left
unchanged" fails as stated. -/
theorem set_status_started_at_changes :
    (applyStatusUpdate { status := some Status.running } 7 baseJob).startedAt
      = some 7 ∧
    baseJob.startedAt = none ∧
    (applyStatusUpdate { status := some Status.running } 7 baseJob).startedAt
      ≠ baseJob.startedAt := by
  refine ⟨rfl, rfl, by decide⟩

/-- C2 (amended): rows with a different id are untouched; on the addressed
row exactly the non-null fields among status/stage/progress/error/
output_path are applied, updated_at is always refreshed, and every other
field is unchanged except started_at, which is set to the call time
exactly when status="running" is passed and started_at was unset. -/
theorem set_job_status_frame (u : StatusUpdate) (now : Rat) (j : Job) :
    (∀ (s : Store) (id : Nat) (k : Job), k ∈ s → k.id ≠ id →
        k ∈ set_job_status s id u now) ∧
    (applyStatusUpdate u now j).status = u.status.getD j.status ∧
    (applyStatusUpdate u now j).stage = u.stage.getD j.stage ∧
    (applyStatusUpdate u now j).progress = u.progress.getD j.progress ∧
    (applyStatusUpdate u now j).error =
      (match u.error with | some e => some e | none => j.error) ∧
    (applyStatusUpdate u now j).outputPath =
      (match u.outputPath with | some p => some p | none => j.outputPath) ∧
    (applyStatusUpdate u now j).updatedAt = now ∧
    (applyStatusUpdate u now j).startedAt =
      (if u.status = some Status.running ∧ j.startedAt = none
        then some now else j.startedAt) ∧
    (applyStatusUpdate u now j).id = j.id ∧
    (applyStatusUpdate u now j).topic = j.topic ∧
    (applyStatusUpdate u now j).model = j.model ∧
    (applyStatusUpdate u now j).jobType = j.jobType ∧
    (applyStatusUpdate u now j).parentId = j.parentId ∧
    (applyStatusUpdate u now j).sourcePath = j.sourcePath ∧
    (applyStatusUpdate u now j).createdAt = j.createdAt ∧
    (applyStatusUpdate u now j).queuePosition = j.queuePosition := by
  rw [applyStatusUpdate_eq]
  refine ⟨?_, rfl, rfl, rfl, rfl, rfl, rfl, rfl, rfl, rfl, rfl, rfl, rfl, rfl,
    rfl, rfl⟩
  intro s id k hk hne
  exact List.mem_map.mpr ⟨k, hk, by simp [hne]⟩

/-- C2 witness: the frame theorem applied to a concrete two-row store,
showing the row with the other id survives unchanged. -/
theorem set_job_status_frame_witness :
    c8Job ∈ set_job_status [baseJob, c8Job] 1
      { status := some Status.running } 7 :=
  (set_job_status_frame { status := some Status.running } 7 baseJob).1
    [baseJob, c8Job] 1 c8Job (by simp) (by decide)

/-- C1 (code bug): retrying the failed job c1Job resets status, stage and
progress and makes it selectable again, but the stored error survives,
because set_job_status does not apply None-valued fields; the spec says
error and output_path are reset to null. -/
theorem retry_leaves_error_set :
    retry_job [c1Job] 1 7 = some [c1After] ∧
    c1After.status = Status.queued ∧
    c1After.progress = 0 ∧
    c1After.outputPath = none ∧
    c1After.error = some "boom" ∧
    get_next_queued_job [c1After] = some c1After := by
  refine ⟨by decide, rfl, rfl, rfl, rfl, by decide⟩

/-- C8 (amended): cancel succeeds exactly when the job exists and its
status is queued, running or stopped (the handler rejects only
completed/failed/cancelled); on success the job moves to cancelled with
stage "cancelled"; on rejection the handler raises and the store is
untouched. -/
theorem cancel_job_spec (s : Store) (id : Nat) (now : Rat) :
    (cancel_job s id now = none ↔
      getJob s id = none ∨
        ∃ j, getJob s id = some j ∧
          (j.status = Status.completed ∨ j.status = Status.failed ∨
           j.status = Status.cancelled)) ∧
    (∀ s', cancel_job s id now = some s' →
      ∃ j, getJob s id = some j ∧
        (j.status = Status.queued ∨ j.status = Status.running ∨
         j.status = Status.stopped) ∧
        s' = set_job_status s id
          { status := some Status.cancelled, stage := some "cancelled" } now ∧
        getJob s' id = some (applyStatusUpdate
          { status := some Status.cancelled, stage := some "cancelled" } now j) ∧
        (applyStatusUpdate
          { status := some Status.cancelled, stage := some "cancelled" } now j).status
          = Status.cancelled) := by
  constructor
  · rcases hg : getJob s id with _ | j
    · simp [cancel_job, hg]
    · by_cases hc : j.status = Status.completed ∨ j.status = Status.failed ∨
          j.status = Status.cancelled
      · simp [cancel_job, hg, hc]
      · simp [cancel_job, hg, hc]
  · intro s' h
    rcases hg : getJob s id with _ | j
    · simp [cancel_job, hg] at h
    · by_cases hc : j.status = Status.completed ∨ j.status = Status.failed ∨
          j.status = Status.cancelled
      · simp [cancel_job, hg, hc] at h
      · simp only [cancel_job, hg, if_neg hc] at h
        have hseq := (Option.some_inj.mp h).symm
        refine ⟨j, rfl, ?_, hseq, ?_, ?_⟩
        · cases hs : j.status <;> simp [hs] at hc ⊢
        · rw [hseq, getJob_set_job_status, hg]
          rfl
        · rw [applyStatusUpdate_eq]
          rfl

/-- C8 witness: the amended theorem applied to a queued one-job store. -/
theorem cancel_job_spec_witness :
    ∃ j, getJob [baseJob] 1 = some j ∧
      (applyStatusUpdate
        { status := some Status.cancelled, stage := some "cancelled" } 4 j).status
        = Status.cancelled := by
  obtain ⟨j, h1, _h2, _h3, _h4, h5⟩ := (cancel_job_spec [baseJob] 1 4).2 _ rfl
  exact ⟨j, h1, h5⟩

/-- C8 counterexample: the cancel handler accepts the stopped job c8Job
and moves it to cancelled, although the claim says cancel succeeds only
for queued or running jobs. -/
theorem cancel_stopped_job_succeeds :
    c8Job.status = Status.stopped ∧
    cancel_job [c8Job] 2 9 = some [c8After] ∧
    c8After.status = Status.cancelled := by
  refine ⟨rfl, by decide, rfl⟩

theorem posLt_irrefl (p : Option Int) : posLt p p = false := by
  cases p <;> simp [posLt]

theorem posLt_trans {a b c : Option Int} (h1 : posLt a b = true)
    (h2 : posLt b c = true) : posLt a c = true := by
  cases a <;> cases b <;> cases c <;> simp_all [posLt] <;> omega

theorem posLt_resolve {a c : Option Int} (b : Option Int)
    (h : posLt a c = true) : posLt a b = true ∨ posLt b c = true := by
  cases a <;> cases b <;> cases c <;> simp_all [posLt] <;> omega

theorem selBefore_irrefl (a : Job) : selBefore a a = false := by
  simp [selBefore, posLt_irrefl]

theorem selBefore_trans {a b c : Job} (h1 : selBefore a b = true)
    (h2 : selBefore b c = true) : selBefore a c = true := by
  simp only [selBefore, Bool.or_eq_true, Bool.and_eq_true,
    decide_eq_true_eq] at h1 h2 ⊢
  rcases h1 with h1 | ⟨h1e, h1p⟩ <;> rcases h2 with h2 | ⟨h2e, h2p⟩
  · exact Or.inl (lt_trans h1 h2)
  · exact Or.inl (h2e ▸ h1)
  · exact Or.inl (h1e ▸ h2)
  · exact Or.inr ⟨h1e.trans h2e, posLt_trans h1p h2p⟩

theorem selBefore_resolve {a c : Job} (b : Job) (h : selBefore a c = true) :
    selBefore a b = true ∨ selBefore b c = true := by
  simp only [selBefore, Bool.or_eq_true, Bool.and_eq_true,
    decide_eq_true_eq] at h ⊢
  rcases h with h | ⟨he, hp⟩
  · rcases Nat.lt_or_ge (recommendFlag a) (recommendFlag b) with hab | hab
    · exact Or.inl (Or.inl hab)
    · exact Or.inr (Or.inl (lt_of_le_of_lt hab h))
  · rcases Nat.lt_trichotomy (recommendFlag a) (recommendFlag b) with hab | hab | hab
    · exact Or.inl (Or.inl hab)
    · rcases posLt_resolve b.queuePosition hp with hx | hx
      · exact Or.inl (Or.inr ⟨hab, hx⟩)
      · exact Or.inr (Or.inr ⟨hab ▸ he, hx⟩)
    · exact Or.inr (Or.inl (he ▸ hab))

theorem selFold_isSome (l : List Job) (b : Job) :
    (l.foldl selStep (some b)).isSome = true := by
  induction l generalizing b with
  | nil => rfl
  | cons j rest ih =>
      rw [List.foldl_cons]
      show (rest.foldl selStep (selStep (some b) j)).isSome = true
      by_cases hjb : selBefore j b = true <;> simp [selStep, hjb, ih]

theorem selFold_mem {l : List Job} {b r : Job}
    (h : l.foldl selStep (some b) = some r) : r = b ∨ r ∈ l := by
  induction l generalizing b with
  | nil =>
      simp only [List.foldl_nil] at h
      exact Or.inl (Option.some_inj.mp h).symm
  | cons j rest ih =>
      rw [List.foldl_cons] at h
      by_cases hjb : selBefore j b = true
      · have hh : rest.foldl selStep (some j) = some r := by
          simpa [selStep, hjb] using h
        rcases ih hh with rfl | hr
        · exact Or.inr (List.mem_cons_self _ _)
        · exact Or.inr (List.mem_cons_of_mem _ hr)
      · have hh : rest.foldl selStep (some b) = some r := by
          simpa [selStep, hjb] using h
        rcases ih hh with rfl | hr
        · exact Or.inl rfl
        · exact Or.inr (List.mem_cons_of_mem _ hr)

theorem selFold_min {l : List Job} {b r : Job}
    (h : l.foldl selStep (some b) = some r) :
    selBefore b r = false ∧ ∀ j ∈ l, selBefore j r = false := by
  induction l generalizing b with
  | nil =>
      simp only [List.foldl_nil] at h
      rw [← Option.some_inj.mp h]
      exact ⟨selBefore_irrefl b, by simp⟩
  | cons j rest ih =>
      rw [List.foldl_cons] at h
      by_cases hjb : selBefore j b = true
      · have hh : rest.foldl selStep (some j) = some r := by
          simpa [selStep, hjb] using h
        obtain ⟨hjr, hall⟩ := ih hh
        have hbr : selBefore b r = false := by
          by_contra hb
          have hb' : selBefore b r = true := by
            revert hb
            cases selBefore b r <;> simp
          exact absurd (selBefore_trans hjb hb') (by simp [hjr])
        refine ⟨hbr, ?_⟩
        intro k hk
        rcases List.mem_cons.mp hk with rfl | hkr
        · exact hjr
        · exact hall k hkr
      · have hh : rest.foldl selStep (some b) = some r := by
          simpa [selStep, hjb] using h
        obtain ⟨hbr, hall⟩ := ih hh
        refine ⟨hbr, ?_⟩
        intro k hk
        rcases List.mem_cons.mp hk with rfl | hkr
        · by_contra hkb
          have hk' : selBefore k r = true := by
            revert hkb
            cases selBefore k r <;> simp
          rcases selBefore_resolve b hk' with hx | hx
          · exact absurd hx (by simp [hjb])
          · exact absurd hx (by simp [hbr])
        · exact hall k hkr

/-- C4: get_next_queued_job returns none exactly when no job is queued;
otherwise it returns a queued job that is minimal for the ordering
"non-recommend_topics first, then ascending queue position": no queued job
sorts strictly before it, it is a non-recommend_topics job whenever one is
queued, and no queued job of the same class has a strictly smaller
position.  The operation is a pure read by construction (a function of the
store that returns no store). -/
theorem get_next_queued_job_spec (s : Store) :
    (get_next_queued_job s = none ↔ ∀ j ∈ s, j.status ≠ Status.queued) ∧
    (∀ jr, get_next_queued_job s = some jr →
      jr ∈ s ∧ jr.status = Status.queued ∧
      (∀ j ∈ s, j.status = Status.queued → selBefore j jr = false) ∧
      ((∃ j ∈ s, j.status = Status.queued ∧ j.jobType ≠ "recommend_topics") →
        jr.jobType ≠ "recommend_topics") ∧
      (∀ j ∈ s, j.status = Status.queued →
        recommendFlag j = recommendFlag jr →
        posLt j.queuePosition jr.queuePosition = false)) := by
  have hmemf : ∀ j : Job, j ∈ s.filter (fun k => k.status = Status.queued) ↔
      j ∈ s ∧ j.status = Status.queued := by
    intro j
    simp [List.mem_filter]
  constructor
  · unfold get_next_queued_job
    rcases hf : s.filter (fun k => k.status = Status.queued) with _ | ⟨j0, rest⟩
    · rw [hf]
      simp only [List.foldl_nil]
      constructor
      · intro _ j hj hq
        have : j ∈ s.filter (fun k => k.status = Status.queued) :=
          (hmemf j).mpr ⟨hj, hq⟩
        rw [hf] at this
        cases this
      · intro _
        trivial
    · rw [hf, List.foldl_cons]
      constructor
      · intro hnone
        have := selFold_isSome rest j0
        rw [show selStep none j0 = some j0 from rfl] at hnone
        rw [hnone] at this
        cases this
      · intro hall
        have : j0 ∈ s.filter (fun k => k.status = Status.queued) := by
          rw [hf]
          exact List.mem_cons_self _ _
        have h0 := (hmemf j0).mp this
        exact absurd h0.2 (hall j0 h0.1)
  · intro jr hr
    unfold get_next_queued_job at hr
    rcases hf : s.filter (fun k => k.status = Status.queued) with _ | ⟨j0, rest⟩
    · rw [hf] at hr
      cases hr
    · rw [hf, List.foldl_cons,
        show selStep none j0 = some j0 from rfl] at hr
      have hmem : jr ∈ s.filter (fun k => k.status = Status.queued) := by
        rcases selFold_mem hr with rfl | h
        · rw [hf]
          exact List.mem_cons_self _ _
        · rw [hf]
          exact List.mem_cons_of_mem _ h
      obtain ⟨hjr_mem, hjr_q⟩ := (hmemf jr).mp hmem
      obtain ⟨h0min, hallmin⟩ := selFold_min hr
      have hminall : ∀ j ∈ s, j.status = Status.queued → selBefore j jr = false := by
        intro j hj hq
        have : j ∈ s.filter (fun k => k.status = Status.queued) :=
          (hmemf j).mpr ⟨hj, hq⟩
        rw [hf] at this
        rcases List.mem_cons.mp this with rfl | hjrest
        · exact h0min
        · exact hallmin j hjrest
      refine ⟨hjr_mem, hjr_q, hminall, ?_, ?_⟩
      · rintro ⟨j, hj, hq, hnr⟩ hrr
        have hflagj : recommendFlag j = 0 := by
          simp [recommendFlag, hnr]
        have hflagr : recommendFlag jr = 1 := by
          simp [recommendFlag, hrr]
        have : selBefore j jr = true := by
          simp [selBefore, hflagj, hflagr]
        exact absurd this (by simp [hminall j hj hq])
      · intro j hj hq hfl
        have hmin := hminall j hj hq
        simp only [selBefore, Bool.or_eq_false_iff, Bool.and_eq_false_iff,
          decide_eq_false_iff_not] at hmin
        rcases hmin.2 with hx | hx
        · exact absurd hfl hx
        · exact hx

/-- C4 witness: in a three-job queued store the job at position 1 is
selected, and the theorem's minimality conclusions hold for it. -/
theorem get_next_queued_job_spec_witness :
    get_next_queued_job mvStore = some baseJob ∧
    baseJob ∈ mvStore ∧ baseJob.status = Status.queued := by
  have h := (get_next_queued_job_spec mvStore).2 baseJob (by decide)
  exact ⟨by decide, h.1, h.2.1⟩

theorem set_job_status_of_getJob_none {s : Store} {id : Nat}
    (hg : getJob s id = none) (u : StatusUpdate) (now : Rat) :
    set_job_status s id u now = s := by
  have hall := List.find?_eq_none.mp hg
  unfold set_job_status
  conv_rhs => rw [← List.map_id s]
  apply List.map_congr_left
  intro j hj
  have : ¬ j.id = id := by
    have := hall j hj
    simpa using this
  simp [this]

theorem inv_update {s : Store} {id : Nat} {u : StatusUpdate} {now : Rat}
    {j : Job} (hI : StoreInv s) (hg : getJob s id = some j)
    (hout : (match u.outputPath with
             | some p => some p
             | none => j.outputPath) ≠ none →
        u.status.getD j.status = Status.completed)
    (herr : u.status.getD j.status = Status.failed →
        (match u.error with | some e => some e | none => j.error) ≠ none) :
    StoreInv (set_job_status s id u now) := by
  refine ⟨by rw [map_id_set_job_status]; exact hI.1, ?_⟩
  intro k' hk'
  obtain ⟨k, hk, hke⟩ := mem_set_job_status hk'
  by_cases hid : k.id = id
  · have hjid : j.id = id := (getJob_eq_some hg).2
    have hkj : k = j :=
      getJob_unique hI.1 (by rw [hjid]; exact hg) hk (by rw [hid, hjid])
    subst hkj
    rw [hke, if_pos hid, applyStatusUpdate_eq]
    exact ⟨hout, herr⟩
  · rw [hke, if_neg hid]
    exact hI.2 k hk

/-- A job whose status is not completed has no output path (under the
invariant). -/
theorem out_none_of_not_completed {s : Store} (hI : StoreInv s) {j : Job}
    (hj : j ∈ s) (hne : j.status ≠ Status.completed) : j.outputPath = none := by
  by_contra hno
  exact hne ((hI.2 j hj).1 hno)

theorem storeInv_posmap (s : Store) (f : Job → Job)
    (hf : ∀ k, (f k).id = k.id ∧ (f k).status = k.status ∧
      (f k).outputPath = k.outputPath ∧ (f k).error = k.error)
    (hI : StoreInv s) : StoreInv (s.map f) := by
  constructor
  · rw [List.map_map]
    have : ∀ k ∈ s, (Job.id ∘ f) k = Job.id k := by
      intro k _
      exact (hf k).1
    rw [List.map_congr_left this]
    exact hI.1
  · intro k' hk'
    obtain ⟨k, hk, hke⟩ := List.mem_map.mp hk'
    rw [← hke]
    rw [(hf k).2.1, (hf k).2.2.1, (hf k).2.2.2]
    exact hI.2 k hk

theorem storeInv_move (s : Store) (id : Nat) (dir : Direction)
    (hI : StoreInv s) : StoreInv (move_job s id dir) := by
  unfold move_job
  split
  · exact hI
  split
  · exact hI
  split
  · exact hI
  apply storeInv_posmap _ _ _ hI
  intro k
  by_cases h1 : k.id = id
  · simp [h1]
  · rename_i nbid nbp _
    by_cases h2 : k.id = nbid
    · have h3 : ¬ nbid = id := by
        rw [← h2]
        exact h1
      simp [h1, h2, h3]
    · simp [h1, h2]

theorem step_preserves {s s' : Store} (hstep : Step s s') (hI : StoreInv s) :
    StoreInv s' := by
  cases hstep with
  | create id topic model jobType parentId sourcePath now hfresh =>
      constructor
      · unfold create_job
        rw [List.map_append]
        rw [List.nodup_append]
        refine ⟨hI.1, by simp, ?_⟩
        intro x hx hy
        simp only [List.map_cons, List.map_nil, List.mem_singleton] at hy
        obtain ⟨k, hk, hke⟩ := List.mem_map.mp hx
        exact hfresh k hk (by rw [hke, hy])
      · intro k hk
        unfold create_job at hk
        rcases List.mem_append.mp hk with hk1 | hk2
        · exact hI.2 k hk1
        · simp only [List.mem_singleton] at hk2
          subst hk2
          exact ⟨by intro h; exact absurd rfl h, by intro h; cases h⟩
  | cancel id now s' h =>
      rcases hg : getJob s id with _ | j
      · simp [cancel_job, hg] at h
      · simp only [cancel_job, hg] at h
        by_cases hc : j.status = Status.completed ∨ j.status = Status.failed ∨
            j.status = Status.cancelled
        · rw [if_pos hc] at h
          exact Option.noConfusion h
        · rw [if_neg hc] at h
          rw [← Option.some_inj.mp h]
          have hjs : j.status ≠ Status.completed := fun he => hc (Or.inl he)
          have hout := out_none_of_not_completed hI (getJob_eq_some hg).1 hjs
          refine inv_update hI hg ?_ ?_
          · intro hno
            exact absurd hout (by simpa using hno)
          · intro hst
            cases hst
  | stop id now s' h =>
      rcases hg : getJob s id with _ | j
      · simp [stop_job, hg] at h
      · simp only [stop_job, hg] at h
        by_cases hc : j.status = Status.running
        · rw [if_pos hc] at h
          rw [← Option.some_inj.mp h]
          have hjs : j.status ≠ Status.completed := by rw [hc]; intro he; cases he
          have hout := out_none_of_not_completed hI (getJob_eq_some hg).1 hjs
          refine inv_update hI hg ?_ ?_
          · intro hno
            exact absurd hout (by simpa using hno)
          · intro hst
            cases hst
        · rw [if_neg hc] at h
          exact Option.noConfusion h
  | resume id now s' h =>
      rcases hg : getJob s id with _ | j
      · simp [resume_job, hg] at h
      · simp only [resume_job, hg] at h
        by_cases hc : j.status = Status.stopped
        · rw [if_pos hc] at h
          rw [← Option.some_inj.mp h]
          have hjs : j.status ≠ Status.completed := by rw [hc]; intro he; cases he
          have hout := out_none_of_not_completed hI (getJob_eq_some hg).1 hjs
          refine inv_update hI hg ?_ ?_
          · intro hno
            exact absurd hout (by simpa using hno)
          · intro hst
            cases hst
        · rw [if_neg hc] at h
          exact Option.noConfusion h
  | retry id now s' h =>
      rcases hg : getJob s id with _ | j
      · simp [retry_job, hg] at h
      · simp only [retry_job, hg] at h
        by_cases hc : j.status = Status.failed ∨ j.status = Status.cancelled
        · rw [if_pos hc] at h
          rw [← Option.some_inj.mp h]
          have hjs : j.status ≠ Status.completed := by
            rcases hc with hc | hc <;> rw [hc] <;> intro he <;> cases he
          have hout := out_none_of_not_completed hI (getJob_eq_some hg).1 hjs
          refine inv_update hI hg ?_ ?_
          · intro hno
            exact absurd hout (by simpa using hno)
          · intro hst
            cases hst
        · rw [if_neg hc] at h
          exact Option.noConfusion h
  | move id dir s' h =>
      rcases hg : getJob s id with _ | j
      · simp [move_endpoint, hg] at h
      · simp only [move_endpoint, hg] at h
        by_cases hc : j.status = Status.queued
        · rw [if_pos hc] at h
          rw [← Option.some_inj.mp h]
          exact storeInv_move s id dir hI
        · rw [if_neg hc] at h
          exact Option.noConfusion h
  | del id s' h =>
      rcases hg : getJob s id with _ | j
      · simp [delete_job, hg] at h
      · simp only [delete_job, hg] at h
        by_cases hc : j.status = Status.running
        · rw [if_pos hc] at h
          exact Option.noConfusion h
        · rw [if_neg hc] at h
          rw [← Option.some_inj.mp h]
          constructor
          · exact List.Nodup.sublist
              (List.Sublist.map Job.id (List.filter_sublist s)) hI.1
          · intro k hk
            exact hI.2 k (List.mem_of_mem_filter hk)
  | runStart id stage p now s' h =>
      rcases hg : getJob s id with _ | j
      · simp [run_start, hg] at h
      · simp only [run_start, hg] at h
        by_cases hc : j.status = Status.queued
        · rw [if_pos hc] at h
          rw [← Option.some_inj.mp h]
          have hjs : j.status ≠ Status.completed := by rw [hc]; intro he; cases he
          have hout := out_none_of_not_completed hI (getJob_eq_some hg).1 hjs
          refine inv_update hI hg ?_ ?_
          · intro hno
            exact absurd hout (by simpa using hno)
          · intro hst
            cases hst
        · rw [if_neg hc] at h
          exact Option.noConfusion h
  | runProgress id stage p now =>
      rcases hg : getJob s id with _ | j
      · unfold run_progress
        rw [set_job_status_of_getJob_none hg]
        exact hI
      · refine inv_update hI hg ?_ ?_
        · intro hno
          exact (hI.2 j (getJob_eq_some hg).1).1 (by simpa using hno)
        · intro hst
          exact (hI.2 j (getJob_eq_some hg).1).2 hst
  | runComplete id path now s' h =>
      rcases hg : getJob s id with _ | j
      · simp [run_complete, hg] at h
      · simp only [run_complete, hg] at h
        by_cases hc : j.status = Status.running ∨ j.status = Status.cancelled ∨
            j.status = Status.stopped
        · rw [if_pos hc] at h
          rw [← Option.some_inj.mp h]
          refine inv_update hI hg ?_ ?_
          · intro _
            rfl
          · intro hst
            cases hst
        · rw [if_neg hc] at h
          exact Option.noConfusion h
  | runFail id msg now s' h =>
      rcases hg : getJob s id with _ | j
      · simp [run_fail, hg] at h
      · simp only [run_fail, hg] at h
        by_cases hc : j.status = Status.running ∨ j.status = Status.cancelled ∨
            j.status = Status.stopped
        · rw [if_pos hc] at h
          rw [← Option.some_inj.mp h]
          have hjs : j.status ≠ Status.completed := by
            rcases hc with hc | hc | hc <;> rw [hc] <;> intro he <;> cases he
          have hout := out_none_of_not_completed hI (getJob_eq_some hg).1 hjs
          refine inv_update hI hg ?_ ?_
          · intro hno
            exact absurd hout (by simpa using hno)
          · intro _
            simp
        · rw [if_neg hc] at h
          exact Option.noConfusion h

/-- C3 (amended): in every store reachable through the system's operations,
a job with non-null output_path has status completed, and a failed job has
a non-null error; but once status leaves queued/running it is not true
that exactly one of output_path/error is set: cancel and stop write only
status and stage, so a cancelled or stopped job can have both fields null. -/
theorem reachable_payload_invariant (s : Store) (h : Reachable s) :
    ∀ j ∈ s, (j.outputPath ≠ none → j.status = Status.completed) ∧
      (j.status = Status.failed → j.error ≠ none) := by
  have hInv : StoreInv s := by
    unfold Reachable at h
    induction h with
    | refl => exact ⟨by simp, by simp⟩
    | tail _ hstep ih => exact step_preserves hstep ih
  exact hInv.2

/-- C3 witness: the invariant theorem applied to the reachable store in
which one job was created and then cancelled: its job, being cancelled
(not completed), can have no output path. -/
theorem reachable_payload_invariant_witness :
    c3Job0.outputPath = none := by
  have hreach : Reachable c3Store :=
    Relation.ReflTransGen.tail
      (Relation.ReflTransGen.single
        (Step.create [] 1 "quantum computing" "m" "book" none none 0
          (by simp)))
      (Step.cancel c3Mid 1 1 c3Store rfl)
  have h := reachable_payload_invariant c3Store hreach c3Job0 (by decide)
  by_contra hno
  have h2 := h.1 hno
  have h3 : c3Job0.status = Status.cancelled := by decide
  rw [h3] at h2
  exact absurd h2 (by decide)

/-- C3 counterexample: the reachable store c3Store holds a cancelled job
with output_path and error both null, refuting "exactly one of
output_path/error is set once status leaves queued/running". -/
theorem cancelled_job_has_neither_payload :
    Reachable c3Store ∧
    (getJob c3Store 1).map Job.status = some Status.cancelled ∧
    (getJob c3Store 1).map Job.outputPath = some none ∧
    (getJob c3Store 1).map Job.error = some none := by
  refine ⟨?_, rfl, rfl, rfl⟩
  exact Relation.ReflTransGen.tail
    (Relation.ReflTransGen.single
      (Step.create [] 1 "quantum computing" "m" "book" none none 0 (by simp)))
    (Step.cancel c3Mid 1 1 c3Store rfl)

theorem statsStep_queued (now : Rat) (acc : StatsAcc) (r : QueueRow) :
    (statsStep now acc r).queued =
      acc.queued + (if r.status = Status.queued then 1 else 0) := by
  cases hst : r.status <;> simp [statsStep, hst] <;> (repeat' split) <;> simp

theorem statsStep_running (now : Rat) (acc : StatsAcc) (r : QueueRow) :
    (statsStep now acc r).running =
      acc.running + (if r.status = Status.running then 1 else 0) := by
  cases hst : r.status <;> simp [statsStep, hst] <;> (repeat' split) <;> simp

theorem statsStep_cd (now : Rat) (acc : StatsAcc) (r : QueueRow) :
    (statsStep now acc r).completedDurations =
      acc.completedDurations ++
        (match r.status, parse_iso r.createdAt, parse_iso r.updatedAt with
         | Status.completed, some c, some u =>
             if 0 < u - c then [u - c] else []
         | _, _, _ => []) := by
  cases hst : r.status <;>
    simp only [statsStep, hst] <;>
    (repeat' split) <;>
    simp_all <;>
    linarith

theorem statsStep_eta (now : Rat) (acc : StatsAcc) (r : QueueRow) :
    (statsStep now acc r).runningEta =
      (match acc.runningEta with
       | some e => some e
       | none =>
           if r.status = Status.running then
             estimate_remaining_seconds r.createdAt r.progress r.startedAt now
           else none) := by
  cases hst : r.status <;>
    cases hre : acc.runningEta <;>
    simp only [statsStep, hst] <;>
    (repeat' split) <;>
    simp_all

theorem queuedCount_cons (r : QueueRow) (rest : List QueueRow) :
    queuedCount (r :: rest) =
      (if r.status = Status.queued then 1 else 0) + queuedCount rest := by
  by_cases h : r.status = Status.queued <;>
    simp [queuedCount, List.filter_cons, h, Nat.add_comm]

theorem runningCount_cons (r : QueueRow) (rest : List QueueRow) :
    runningCount (r :: rest) =
      (if r.status = Status.running then 1 else 0) + runningCount rest := by
  by_cases h : r.status = Status.running <;>
    simp [runningCount, List.filter_cons, h, Nat.add_comm]

theorem completedDurList_cons (r : QueueRow) (rest : List QueueRow) :
    completedDurList (r :: rest) =
      (match r.status, parse_iso r.createdAt, parse_iso r.updatedAt with
       | Status.completed, some c, some u =>
           if 0 < u - c then [u - c] else []
       | _, _, _ => []) ++ completedDurList rest := by
  unfold completedDurList
  rw [List.filterMap_cons]
  cases hst : r.status <;>
    cases hc : parse_iso r.createdAt <;>
    cases hu : parse_iso r.updatedAt <;>
    simp only [] <;>
    (repeat' split) <;>
    simp_all

theorem firstRunningEta_cons (r : QueueRow) (rest : List QueueRow) (now : Rat) :
    firstRunningEta (r :: rest) now =
      (if r.status = Status.running then
        (match estimate_remaining_seconds r.createdAt r.progress r.startedAt now with
         | some e => some e
         | none => firstRunningEta rest now)
       else firstRunningEta rest now) := by
  by_cases h : r.status = Status.running
  · simp only [firstRunningEta, List.filter_cons, h, if_pos, decide_True,
      List.findSome?_cons]
    cases estimate_remaining_seconds r.createdAt r.progress r.startedAt now <;>
      simp [firstRunningEta]
  · simp [firstRunningEta, List.filter_cons, h]

theorem statsFold_spec (now : Rat) (rows : List QueueRow) (acc : StatsAcc) :
    (rows.foldl (statsStep now) acc).queued = acc.queued + queuedCount rows ∧
    (rows.foldl (statsStep now) acc).running = acc.running + runningCount rows ∧
    (rows.foldl (statsStep now) acc).completedDurations
      = acc.completedDurations ++ completedDurList rows ∧
    (rows.foldl (statsStep now) acc).runningEta
      = (match acc.runningEta with
         | some e => some e
         | none => firstRunningEta rows now) := by
  induction rows generalizing acc with
  | nil =>
      refine ⟨by simp [queuedCount], by simp [runningCount],
        by simp [completedDurList], ?_⟩
      cases h : acc.runningEta <;> simp [firstRunningEta, h]
  | cons r rest ih =>
      rw [List.foldl_cons]
      obtain ⟨ih1, ih2, ih3, ih4⟩ := ih (statsStep now acc r)
      refine ⟨?_, ?_, ?_, ?_⟩
      · rw [ih1, statsStep_queued, queuedCount_cons]
        omega
      · rw [ih2, statsStep_running, runningCount_cons]
        omega
      · rw [ih3, statsStep_cd, completedDurList_cons, List.append_assoc]
      · rw [ih4, statsStep_eta, firstRunningEta_cons]
        cases hre : acc.runningEta <;>
          by_cases h : r.status = Status.running <;>
          simp only [h, if_pos, if_neg, ite_true, ite_false] <;>
          (try cases estimate_remaining_seconds r.createdAt r.progress r.startedAt now) <;>
          simp_all

/-- C9 (amended): total_eta_seconds equals (running ETA or 0) plus
floor(average completed duration × queued count) — the floor is applied to
the product, not to the average alone; it is null exactly when neither a
running-job ETA nor an average completed duration is available; and on the
spec's example (1 completed of duration 1200, 1 running at progress 0.5
with 600s elapsed, 2 queued) it equals running_eta + 2400 = 600 + 2400. -/
theorem get_queue_stats_eta_spec (rows : List QueueRow) (now : Rat) :
    ((get_queue_stats rows now).totalEtaSeconds =
      if (effectiveRunningEta rows now).isSome ||
          (avgCompletedDuration rows).isSome then
        some ((effectiveRunningEta rows now).getD 0 +
          match avgCompletedDuration rows with
          | some a => pyInt (a * queuedCount rows)
          | none => 0)
      else none) ∧
    ((get_queue_stats rows now).totalEtaSeconds = none ↔
      firstRunningEta rows now = none ∧ avgCompletedDuration rows = none) ∧
    (get_queue_stats c9ExRows 600).totalEtaSeconds = some (600 + 2400) := by
  obtain ⟨h1, h2, h3, h4⟩ := statsFold_spec now rows {}
  have hq : (rows.foldl (statsStep now) {}).queued = queuedCount rows := by
    simpa using h1
  have hr : (rows.foldl (statsStep now) {}).running = runningCount rows := by
    simpa using h2
  have hcd : (rows.foldl (statsStep now) {}).completedDurations
      = completedDurList rows := by
    simpa using h3
  have heta : (rows.foldl (statsStep now) {}).runningEta
      = firstRunningEta rows now := by
    simpa using h4
  have hform : (get_queue_stats rows now).totalEtaSeconds =
      if (effectiveRunningEta rows now).isSome ||
          (avgCompletedDuration rows).isSome then
        some ((effectiveRunningEta rows now).getD 0 +
          match avgCompletedDuration rows with
          | some a => pyInt (a * queuedCount rows)
          | none => 0)
      else none := by
    simp only [get_queue_stats, hq, hr, hcd, heta]
    rfl
  refine ⟨hform, ?_, ?_⟩
  · rw [hform]
    constructor
    · intro h
      by_cases hc : (effectiveRunningEta rows now).isSome ||
          (avgCompletedDuration rows).isSome
      · rw [if_pos hc] at h
        exact Option.noConfusion h
      · rw [Bool.or_eq_true, not_or] at hc
        have heffn : effectiveRunningEta rows now = none :=
          Option.not_isSome_iff_eq_none.mp (by simpa using hc.1)
        have havgn : avgCompletedDuration rows = none :=
          Option.not_isSome_iff_eq_none.mp (by simpa using hc.2)
        refine ⟨?_, havgn⟩
        rcases hf : firstRunningEta rows now with _ | e
        · rfl
        · rw [effectiveRunningEta, hf] at heffn
          exact Option.noConfusion heffn
    · rintro ⟨hf, ha⟩
      have heff : effectiveRunningEta rows now = none := by
        rw [effectiveRunningEta, hf, ha]
        simp
      rw [if_neg (by simp [heff, ha])]
  · norm_num [get_queue_stats, c9ExRows, statsStep, clamp01,
      estimate_remaining_seconds, refParse, parse_iso, pyInt,
      List.foldl_cons, List.foldl_nil]

/-- C9 counterexample: two completed jobs of durations 1 and 2 (average
1.5) and two queued jobs give total_eta_seconds = floor(1.5 × 2) = 3,
while the claim's formula floor(1.5) × 2 gives 2. -/
theorem queue_stats_eta_counterexample :
    (get_queue_stats c9CexRows 100).totalEtaSeconds = some 3 ∧
    avgCompletedDuration c9CexRows = some (3 / 2) ∧
    queuedCount c9CexRows = 2 ∧
    firstRunningEta c9CexRows 100 = none ∧
    (0 : Int) + ⌊(3 / 2 : Rat)⌋ * 2 ≠ 3 := by
  refine ⟨?_, ?_, by decide, by decide, by norm_num⟩
  · norm_num [get_queue_stats, c9CexRows, statsStep, clamp01,
      estimate_remaining_seconds, refParse, parse_iso, pyInt,
      List.foldl_cons, List.foldl_nil]
  · norm_num [avgCompletedDuration, completedDurList, c9CexRows, parse_iso,
      List.filterMap_cons, List.filterMap_nil]

theorem dedupeGo_spec (limit : Int) (ts seen : List (List Char)) (k : Nat) :
    (∀ t ∈ dedupeGo limit ts seen k, lowerS t ∉ seen) ∧
    ((dedupeGo limit ts seen k).map lowerS).Nodup ∧
    ((dedupeGo limit ts seen k).length : Int) ≤ max (limit - k) 1 := by
  induction ts generalizing seen k with
  | nil =>
      refine ⟨by simp [dedupeGo], by simp [dedupeGo], ?_⟩
      simp only [dedupeGo, List.length_nil]
      have : (1 : Int) ≤ max (limit - k) 1 := le_max_right _ _
      omega
  | cons t rest ih =>
      by_cases hseen : seen.contains (lowerS t) = true
      · have hmem : lowerS t ∈ seen := by simpa using hseen
        have hres : dedupeGo limit (t :: rest) seen k =
            dedupeGo limit rest seen k := by
          simp only [dedupeGo]
          rw [if_pos hseen]
        rw [hres]
        exact ih seen k
      · have hmem : lowerS t ∉ seen := by simpa using hseen
        by_cases hlim : limit ≤ (k + 1 : Int)
        · have hres : dedupeGo limit (t :: rest) seen k = [t] := by
            simp only [dedupeGo]
            rw [if_neg hseen, if_pos hlim]
          rw [hres]
          refine ⟨?_, by simp, ?_⟩
          · intro x hx
            rw [List.mem_singleton] at hx
            rw [hx]
            exact hmem
          · simp only [List.length_singleton]
            have : (1 : Int) ≤ max (limit - k) 1 := le_max_right _ _
            omega
        · obtain ⟨ha, hb, hc⟩ := ih (lowerS t :: seen) (k + 1)
          have hres : dedupeGo limit (t :: rest) seen k =
              t :: dedupeGo limit rest (lowerS t :: seen) (k + 1) := by
            simp only [dedupeGo]
            rw [if_neg hseen, if_neg hlim]
          rw [hres]
          refine ⟨?_, ?_, ?_⟩
          · intro x hx
            rcases List.mem_cons.mp hx with rfl | hxr
            · exact hmem
            · intro hx2
              exact ha x hxr (List.mem_cons_of_mem _ hx2)
          · simp only [List.map_cons, List.nodup_cons]
            refine ⟨?_, hb⟩
            intro hmem2
            obtain ⟨x, hx, hxe⟩ := List.mem_map.mp hmem2
            exact ha x hx (by rw [hxe]; exact List.mem_cons_self _ _)
          · simp only [List.length_cons]
            have h2 : (k : Int) + 1 < limit := lt_of_not_le hlim
            push_cast
            push_cast at hc
            rw [max_def] at hc ⊢
            split at hc <;> split <;> omega

/-- C10 (amended): for every backend reply, json.loads behaviour, recent-
jobs list and limit, the returned topic list contains no entry that is
case-insensitively equal to the whitespace-stripped topic of a recent job
(the code strips recent topics before comparing), contains no two case-
insensitively equal entries, and has length at most max(limit, 1) — a
non-positive limit still lets one topic through because the loop checks
the limit only after appending. -/
theorem recommend_topics_spec (loads : List Char → Option PyJson)
    (recent_jobs : List RecentJob) (text : List Char) (limit : Int) :
    (∀ t ∈ recommend_topics_from_recent loads recent_jobs text limit,
      ∀ r ∈ recent_jobs, ¬ r.topic.isEmpty →
        lowerS t ≠ lowerS (pyStrip r.topic)) ∧
    ((recommend_topics_from_recent loads recent_jobs text limit).map lowerS).Nodup ∧
    ((recommend_topics_from_recent loads recent_jobs text limit).length : Int)
      ≤ max limit 1 := by
  by_cases hre : recent_jobs.isEmpty
  · refine ⟨?_, ?_, ?_⟩
    · intro t ht
      rw [recommend_topics_from_recent, if_pos hre] at ht
      cases ht
    · rw [recommend_topics_from_recent, if_pos hre]
      simp
    · rw [recommend_topics_from_recent, if_pos hre]
      have : (1 : Int) ≤ max limit 1 := le_max_right _ _
      simp only [List.length_nil]
      omega
  · rw [recommend_topics_from_recent, if_neg hre]
    obtain ⟨ha, hb, hc⟩ := dedupeGo_spec limit
      (match extract_json_array loads text with
       | some ts => ts
       | none =>
          (((pySplitlines text).filter (fun l => ¬ (pyStrip l).isEmpty)).map
            (fun l => stripCharSet ['-', '•', ' ', '\t'] l)).filter
            (fun l => ¬ l.isEmpty))
      (((recent_jobs.filter (fun r => ¬ r.topic.isEmpty)).map
        (fun r => pyStrip r.topic)).map lowerS) 0
    refine ⟨?_, hb, by simpa using hc⟩
    intro t ht r hr htop he
    apply ha t ht
    rw [he]
    refine List.mem_map.mpr ⟨pyStrip r.topic, ?_, rfl⟩
    refine List.mem_map.mpr ⟨r, ?_, rfl⟩
    rw [List.mem_filter]
    exact ⟨hr, by simpa using htop⟩

/-- C10 witness: the amended theorem applied to a concrete reply with two
lines, one of which repeats a recent topic. -/
theorem recommend_topics_spec_witness :
    lowerS ("Beta".data) ≠ lowerS (pyStrip ("Alpha".data)) ∧
    ((recommend_topics_from_recent noLoads [{ topic := "Alpha".data }]
        ("Beta\nalpha".data) 8).length : Int) ≤ max 8 1 := by
  have h := recommend_topics_spec noLoads [{ topic := "Alpha".data }]
    ("Beta\nalpha".data) 8
  refine ⟨h.1 ("Beta".data) (by decide) { topic := "Alpha".data }
    (by decide) (by decide), h.2.2⟩

/-- C10 counterexample: with one recent topic "a" followed by a
non-breaking space, a backend reply equal to that very topic, and limit 0,
the routine returns that topic: it is case-insensitively equal to the
recent job's topic (only the stripped form was filtered), and the result
length 1 exceeds the limit 0. -/
theorem recommend_topics_counterexample :
    recommend_topics_from_recent noLoads [c10Recent] c10Text 0
      = [c10Text] ∧
    c10Recent.topic.isEmpty = false ∧
    lowerS c10Text = lowerS c10Recent.topic ∧
    ¬ ((recommend_topics_from_recent noLoads [c10Recent] c10Text 0).length : Int)
      ≤ 0 := by
  refine ⟨by decide, by decide, by decide, by decide⟩

theorem neighborCand_some {dir : Direction} {pos : Int} {j : Job}
    (h : neighborCand dir pos j = true) :
    j.status = Status.queued ∧ ∃ p, j.queuePosition = some p ∧
      (dir = Direction.up → p < pos) ∧ (dir = Direction.down → pos < p) := by
  unfold neighborCand at h
  rw [Bool.and_eq_true] at h
  rcases hp : j.queuePosition with _ | p
  · rw [hp] at h
    cases h.2
  · rw [hp] at h
    refine ⟨by simpa using h.1, p, rfl, ?_, ?_⟩
    · rintro rfl
      simpa using h.2
    · rintro rfl
      simpa using h.2

theorem nbFold_isSome (dir : Direction) (pos : Int) (l : List Job)
    (b : Nat × Int) : (l.foldl (nbStep dir pos) (some b)).isSome = true := by
  induction l generalizing b with
  | nil => rfl
  | cons j rest ih =>
      rw [List.foldl_cons]
      rcases b with ⟨bid, bp⟩
      by_cases hc : neighborCand dir pos j = true
      · rcases hp : j.queuePosition with _ | p
        · simpa [nbStep, hc, hp] using ih (bid, bp)
        · by_cases hbet : neighborBetter dir p bp = true <;>
            simp [nbStep, hc, hp, hbet, ih]
      · simpa [nbStep, hc] using ih (bid, bp)

theorem nbFold_none {dir : Direction} {pos : Int} {l : List Job}
    (h : l.foldl (nbStep dir pos) none = none) :
    ∀ j ∈ l, neighborCand dir pos j = false := by
  induction l with
  | nil => simp
  | cons j rest ih =>
      rw [List.foldl_cons] at h
      by_cases hc : neighborCand dir pos j = true
      · exfalso
        rcases hp : j.queuePosition with _ | p
        · obtain ⟨_, p, hp2, _, _⟩ := neighborCand_some hc
          rw [hp] at hp2
          cases hp2
        · have : (rest.foldl (nbStep dir pos) (some (j.id, p))).isSome = true :=
            nbFold_isSome dir pos rest (j.id, p)
          rw [show nbStep dir pos none j = some (j.id, p) by
            simp [nbStep, hc, hp]] at h
          rw [h] at this
          cases this
      · intro k hk
        rcases List.mem_cons.mp hk with rfl | hkr
        · simpa using hc
        · exact ih (by simpa [nbStep, hc] using h) k hkr

theorem nbFold_mem {dir : Direction} {pos : Int} {l : List Job}
    {b r : Nat × Int} (h : l.foldl (nbStep dir pos) (some b) = some r) :
    r = b ∨ ∃ nb ∈ l, nb.id = r.1 ∧ nb.queuePosition = some r.2 ∧
      neighborCand dir pos nb = true := by
  induction l generalizing b with
  | nil =>
      simp only [List.foldl_nil] at h
      exact Or.inl (Option.some_inj.mp h).symm
  | cons j rest ih =>
      rw [List.foldl_cons] at h
      by_cases hc : neighborCand dir pos j = true
      · rcases hp : j.queuePosition with _ | p
        · have hh : rest.foldl (nbStep dir pos) (some b) = some r := by
            simpa [nbStep, hc, hp] using h
          rcases ih hh with hrb | ⟨nb, hnb, h1, h2, h3⟩
          · exact Or.inl hrb
          · exact Or.inr ⟨nb, List.mem_cons_of_mem _ hnb, h1, h2, h3⟩
        · rcases b with ⟨bid, bp⟩
          by_cases hbet : neighborBetter dir p bp = true
          · have hh : rest.foldl (nbStep dir pos) (some (j.id, p)) = some r := by
              simpa [nbStep, hc, hp, hbet] using h
            rcases ih hh with hrb | ⟨nb, hnb, h1, h2, h3⟩
            · refine Or.inr ⟨j, List.mem_cons_self _ _, ?_, ?_, hc⟩
              · rw [hrb]
              · rw [hrb, hp]
            · exact Or.inr ⟨nb, List.mem_cons_of_mem _ hnb, h1, h2, h3⟩
          · have hh : rest.foldl (nbStep dir pos) (some (bid, bp)) = some r := by
              simpa [nbStep, hc, hp, hbet] using h
            rcases ih hh with hrb | ⟨nb, hnb, h1, h2, h3⟩
            · exact Or.inl hrb
            · exact Or.inr ⟨nb, List.mem_cons_of_mem _ hnb, h1, h2, h3⟩
      · have hh : rest.foldl (nbStep dir pos) (some b) = some r := by
          simpa [nbStep, hc] using h
        rcases ih hh with hrb | ⟨nb, hnb, h1, h2, h3⟩
        · exact Or.inl hrb
        · exact Or.inr ⟨nb, List.mem_cons_of_mem _ hnb, h1, h2, h3⟩

theorem neighborBetter_neg_trans {dir : Direction} {a b c : Int}
    (h1 : neighborBetter dir a b = false) (h2 : neighborBetter dir b c = false) :
    neighborBetter dir a c = false := by
  cases dir <;> simp only [neighborBetter, decide_eq_false_iff_not, not_lt]
    at h1 h2 ⊢ <;> omega

theorem nbFold_min {dir : Direction} {pos : Int} {l : List Job}
    {b r : Nat × Int} (h : l.foldl (nbStep dir pos) (some b) = some r) :
    neighborBetter dir b.2 r.2 = false ∧
    ∀ k ∈ l, neighborCand dir pos k = true → ∀ kp,
      k.queuePosition = some kp → neighborBetter dir kp r.2 = false := by
  induction l generalizing b with
  | nil =>
      simp only [List.foldl_nil] at h
      rw [← Option.some_inj.mp h]
      refine ⟨?_, by simp⟩
      cases dir <;> simp [neighborBetter]
  | cons j rest ih =>
      rw [List.foldl_cons] at h
      by_cases hc : neighborCand dir pos j = true
      · rcases hp : j.queuePosition with _ | p
        · obtain ⟨_, p, hp2, _, _⟩ := neighborCand_some hc
          rw [hp] at hp2
          cases hp2
        · rcases b with ⟨bid, bp⟩
          by_cases hbet : neighborBetter dir p bp = true
          · have hh : rest.foldl (nbStep dir pos) (some (j.id, p)) = some r := by
              simpa [nbStep, hc, hp, hbet] using h
            obtain ⟨hpr, hall⟩ := ih hh
            have hbr : neighborBetter dir bp r.2 = false := by
              by_contra hb
              have hb' : neighborBetter dir bp r.2 = true := by
                revert hb
                cases neighborBetter dir bp r.2 <;> simp
              have : neighborBetter dir p r.2 = true := by
                cases dir <;>
                  simp only [neighborBetter, decide_eq_true_eq] at hbet hb' <;>
                  simp only [neighborBetter, decide_eq_true_eq] <;> omega
              rw [hpr] at this
              cases this
            refine ⟨hbr, ?_⟩
            intro k hk hkc kp hkp
            rcases List.mem_cons.mp hk with rfl | hkr
            · rw [hkp] at hp
              rw [Option.some_inj.mp hp]
              exact hpr
            · exact hall k hkr hkc kp hkp
          · have hh : rest.foldl (nbStep dir pos) (some (bid, bp)) = some r := by
              simpa [nbStep, hc, hp, hbet] using h
            obtain ⟨hbr, hall⟩ := ih hh
            refine ⟨hbr, ?_⟩
            intro k hk hkc kp hkp
            rcases List.mem_cons.mp hk with rfl | hkr
            · have hkp2 : kp = p := by
                rw [hkp] at hp
                exact Option.some_inj.mp hp
              rw [hkp2]
              have hpb : neighborBetter dir p bp = false := by
                revert hbet
                cases neighborBetter dir p bp <;> simp
              exact neighborBetter_neg_trans hpb hbr
            · exact hall k hkr hkc kp hkp
      · have hh : rest.foldl (nbStep dir pos) (some b) = some r := by
          simpa [nbStep, hc] using h
        obtain ⟨hbr, hall⟩ := ih hh
        refine ⟨hbr, ?_⟩
        intro k hk hkc kp hkp
        rcases List.mem_cons.mp hk with rfl | hkr
        · exact absurd hkc hc
        · exact hall k hkr hkc kp hkp

theorem nbFoldNone_spec {dir : Direction} {pos : Int} {l : List Job}
    {nbid : Nat} {nbp : Int}
    (h : l.foldl (nbStep dir pos) none = some (nbid, nbp)) :
    (∃ nb ∈ l, nb.id = nbid ∧ nb.queuePosition = some nbp ∧
      neighborCand dir pos nb = true) ∧
    ∀ k ∈ l, neighborCand dir pos k = true → ∀ kp,
      k.queuePosition = some kp → neighborBetter dir kp nbp = false := by
  induction l with
  | nil => cases h
  | cons j rest ih =>
      rw [List.foldl_cons] at h
      by_cases hc : neighborCand dir pos j = true
      · rcases hp : j.queuePosition with _ | p
        · obtain ⟨_, p, hp2, _, _⟩ := neighborCand_some hc
          rw [hp] at hp2
          cases hp2
        · have hh : rest.foldl (nbStep dir pos) (some (j.id, p))
              = some (nbid, nbp) := by
            simpa [nbStep, hc, hp] using h
          obtain ⟨hmin0, hminall⟩ := nbFold_min hh
          constructor
          · rcases nbFold_mem hh with hrb | ⟨nb, hnb, h1, h2, h3⟩
            · refine ⟨j, List.mem_cons_self _ _, ?_, ?_, hc⟩
              · rw [show nbid = (nbid, nbp).1 from rfl, hrb]
              · rw [show nbp = (nbid, nbp).2 from rfl, hrb, hp]
            · exact ⟨nb, List.mem_cons_of_mem _ hnb, h1, h2, h3⟩
          · intro k hk hkc kp hkp
            rcases List.mem_cons.mp hk with rfl | hkr
            · have hkp2 : kp = p := by
                rw [hkp] at hp
                exact Option.some_inj.mp hp
              rw [hkp2]
              exact hmin0
            · exact hminall k hkr hkc kp hkp
      · have hh : rest.foldl (nbStep dir pos) none = some (nbid, nbp) := by
          simpa [nbStep, hc] using h
        obtain ⟨⟨nb, hnb, h1, h2, h3⟩, hmin⟩ := ih hh
        refine ⟨⟨nb, List.mem_cons_of_mem _ hnb, h1, h2, h3⟩, ?_⟩
        intro k hk hkc kp hkp
        rcases List.mem_cons.mp hk with rfl | hkr
        · exact absurd hkc hc
        · exact hmin k hkr hkc kp hkp

theorem findNeighbor_some {s : Store} {dir : Direction} {pos : Int}
    {nbid : Nat} {nbp : Int}
    (h : findNeighbor s dir pos = some (nbid, nbp)) :
    (∃ nb ∈ s, nb.id = nbid ∧ nb.queuePosition = some nbp ∧
      neighborCand dir pos nb = true) ∧
    ∀ k ∈ s, neighborCand dir pos k = true → ∀ kp,
      k.queuePosition = some kp → neighborBetter dir kp nbp = false :=
  nbFoldNone_spec h

theorem filterMap_nodup_ne {α β : Type _} (f : α → Option β) :
    ∀ l : List α, l.Nodup → (l.filterMap f).Nodup →
      ∀ a ∈ l, ∀ b ∈ l, a ≠ b → ∀ v : β, f a = some v → f b ≠ some v := by
  intro l
  induction l with
  | nil =>
      intro _ _ a ha
      cases ha
  | cons x rest ih =>
      intro hl hf a ha b hb hne v hva hvb
      rw [List.nodup_cons] at hl
      rw [List.filterMap_cons] at hf
      rcases List.mem_cons.mp ha with rfl | har
      · rcases List.mem_cons.mp hb with rfl | hbr
        · exact hne rfl
        · rw [hva] at hf
          rw [List.nodup_cons] at hf
          exact hf.1 (List.mem_filterMap.mpr ⟨b, hbr, hvb⟩)
      · rcases List.mem_cons.mp hb with rfl | hbr
        · rw [hvb] at hf
          rw [List.nodup_cons] at hf
          exact hf.1 (List.mem_filterMap.mpr ⟨a, har, hva⟩)
        · have hfr : (rest.filterMap f).Nodup := by
            rcases hx : f x with _ | vx
            · rw [hx] at hf
              exact hf
            · rw [hx] at hf
              exact (List.nodup_cons.mp hf).2
          exact ih hl.2 hfr a har b hbr hne v hva hvb

theorem swapPos_left (pos nbp : Int) : swapPos pos nbp pos = nbp := by
  simp [swapPos]

theorem swapPos_right (pos nbp : Int) : swapPos pos nbp nbp = pos := by
  by_cases h : nbp = pos <;> simp [swapPos, h]

theorem swapPos_other {pos nbp p : Int} (h1 : p ≠ pos) (h2 : p ≠ nbp) :
    swapPos pos nbp p = p := by
  simp [swapPos, h1, h2]

theorem swapPos_invol (pos nbp p : Int) :
    swapPos pos nbp (swapPos pos nbp p) = p := by
  by_cases h1 : p = pos
  · rw [h1, swapPos_left, swapPos_right]
  · by_cases h2 : p = nbp
    · rw [h2, swapPos_right, swapPos_left]
    · rw [swapPos_other h1 h2, swapPos_other h1 h2]

theorem swapPos_injective (pos nbp : Int) :
    Function.Injective (swapPos pos nbp) := by
  intro a b h
  have h2 := congrArg (swapPos pos nbp) h
  rwa [swapPos_invol, swapPos_invol] at h2

theorem filterMap_filter_map_eq {α β : Type _} (p : α → Bool)
    (q : α → Option β) (f : α → α) (σ : β → β) :
    ∀ l : List α, (∀ a ∈ l, p (f a) = p a) →
      (∀ a ∈ l, p a = true → q (f a) = (q a).map σ) →
      ((l.map f).filter p).filterMap q = (((l.filter p).filterMap q).map σ) := by
  intro l
  induction l with
  | nil =>
      intro _ _
      rfl
  | cons a rest ih =>
      intro hs hp
      rw [List.map_cons, List.filter_cons, List.filter_cons]
      have hsa := hs a (List.mem_cons_self _ _)
      have ihh := ih (fun b hb => hs b (List.mem_cons_of_mem _ hb))
        (fun b hb hqb => hp b (List.mem_cons_of_mem _ hb) hqb)
      by_cases ha : p a = true
      · rw [hsa, if_pos ha, if_pos ha]
        rw [List.filterMap_cons, List.filterMap_cons]
        have hqa := hp a (List.mem_cons_self _ _) ha
        rcases hq2 : q a with _ | v
        · rw [hqa, hq2]
          simpa using ihh
        · rw [hqa, hq2]
          simp [ihh]
      · rw [hsa, if_neg ha, if_neg ha]
        exact ihh

/-- C6: the move endpoint rejects a missing or non-queued job (store
untouched); on success, either no queued neighbor exists in the requested
direction and the store is unchanged, or the job's queue_position is
swapped with the adjacent queued neighbor (nearest strictly smaller
position for up, nearest strictly greater for down); row for row, no
field other than the two queue_position values changes; and the multiset
of queued positions is preserved, hence still duplicate-free. -/
theorem move_endpoint_spec (s : Store) (id : Nat) (dir : Direction)
    (hids : (s.map Job.id).Nodup)
    (hq : (queuedPosList s).Nodup)
    (hsome : ∀ k ∈ s, k.status = Status.queued → k.queuePosition ≠ none) :
    (move_endpoint s id dir = none ↔
      ∀ j, getJob s id = some j → j.status ≠ Status.queued) ∧
    (∀ s', move_endpoint s id dir = some s' →
      ∃ j pos, getJob s id = some j ∧ j.status = Status.queued ∧
        j.queuePosition = some pos ∧
        ((findNeighbor s dir pos = none ∧ s' = s) ∨
         (∃ nbid nbp nb,
            findNeighbor s dir pos = some (nbid, nbp) ∧
            nb ∈ s ∧ nb.id = nbid ∧ nb.status = Status.queued ∧
            nb.queuePosition = some nbp ∧ nbid ≠ id ∧
            (dir = Direction.up → nbp < pos ∧
              ∀ k ∈ s, k.status = Status.queued → ∀ kp,
                k.queuePosition = some kp → kp < pos → kp ≤ nbp) ∧
            (dir = Direction.down → pos < nbp ∧
              ∀ k ∈ s, k.status = Status.queued → ∀ kp,
                k.queuePosition = some kp → pos < kp → nbp ≤ kp) ∧
            List.Forall₂ (fun a b =>
              b.id = a.id ∧ b.topic = a.topic ∧ b.model = a.model ∧
              b.jobType = a.jobType ∧ b.parentId = a.parentId ∧
              b.sourcePath = a.sourcePath ∧ b.status = a.status ∧
              b.progress = a.progress ∧ b.stage = a.stage ∧
              b.createdAt = a.createdAt ∧ b.updatedAt = a.updatedAt ∧
              b.startedAt = a.startedAt ∧ b.error = a.error ∧
              b.outputPath = a.outputPath ∧
              b.queuePosition =
                (if a.id = id then some nbp
                 else if a.id = nbid then some pos
                 else a.queuePosition)) s s' ∧
            (queuedPosList s').Perm (queuedPosList s) ∧
            (queuedPosList s').Nodup))) := by
  constructor
  · rcases hg : getJob s id with _ | j
    · simp [move_endpoint, hg]
    · by_cases hc : j.status = Status.queued <;> simp [move_endpoint, hg, hc]
  · intro s' h
    rcases hg : getJob s id with _ | j
    · simp [move_endpoint, hg] at h
    · simp only [move_endpoint, hg] at h
      by_cases hc : j.status = Status.queued
      swap
      · rw [if_neg hc] at h
        exact Option.noConfusion h
      rw [if_pos hc] at h
      have hs' : s' = move_job s id dir := (Option.some_inj.mp h).symm
      obtain ⟨hjmem, hjid⟩ := getJob_eq_some hg
      rcases hpos : j.queuePosition with _ | pos
      · exact absurd hpos (hsome j hjmem hc)
      refine ⟨j, pos, rfl, hc, hpos, ?_⟩
      rcases hnb : findNeighbor s dir pos with _ | ⟨nbid, nbp⟩
      · left
        refine ⟨rfl, ?_⟩
        rw [hs']
        simp only [move_job, hg, hpos, hnb]
      · right
        obtain ⟨⟨nb, hnbmem, hnbid, hnbp, hnbcand⟩, hmin⟩ := findNeighbor_some hnb
        obtain ⟨hnbq, p', hp', hsu, hsd⟩ := neighborCand_some hnbcand
        have hp'e : p' = nbp := by
          rw [hp'] at hnbp
          exact Option.some_inj.mp hnbp
        rw [hp'e] at hp' hsu hsd
        have hnbpne : nbp ≠ pos := by
          cases dir
          · have := hsu rfl
            omega
          · have := hsd rfl
            omega
        have hgj : getJob s j.id = some j := by
          rw [hjid]
          exact hg
        have hnbid_ne : nbid ≠ id := by
          intro he
          have hnbj : nb = j := getJob_unique hids hgj hnbmem (by rw [hnbid, he, hjid])
          rw [hnbj, hpos] at hp'
          exact hnbpne (Option.some_inj.mp hp').symm
        have hs'2 : s' = s.map (fun k =>
            if k.id = id then { k with queuePosition := some nbp }
            else if k.id = nbid then { k with queuePosition := some pos }
            else k) := by
          rw [hs']
          simp only [move_job, hg, hpos, hnb]
        have hanej : ∀ a ∈ s, a.id ≠ id → a ≠ j := by
          intro a _ hne he
          rw [he, hjid] at hne
          exact hne rfl
        have hgnb : getJob s nb.id = some nb := getJob_of_mem hids hnbmem
        have hfilterNodup : (s.filter (fun k => k.status = Status.queued)).Nodup :=
          List.Nodup.filter _ (List.Nodup.of_map Job.id hids)
        have hjfil : j ∈ s.filter (fun k => k.status = Status.queued) :=
          List.mem_filter.mpr ⟨hjmem, by simp [hc]⟩
        have hnbfil : nb ∈ s.filter (fun k => k.status = Status.queued) :=
          List.mem_filter.mpr ⟨hnbmem, by simp [hnbq]⟩
        have hql : queuedPosList s' = (queuedPosList s).map (swapPos pos nbp) := by
          rw [hs'2]
          unfold queuedPosList
          apply filterMap_filter_map_eq
          · intro a _
            by_cases h1 : a.id = id
            · simp [h1]
            · by_cases h2 : a.id = nbid <;> simp [h1, h2, hnbid_ne]
          · intro a hamem' haq'
            have hamem : a ∈ s := hamem'
            have haq : a.status = Status.queued := by simpa using haq'
            by_cases h1 : a.id = id
            · have haj : a = j := getJob_unique hids hgj hamem (by rw [h1, hjid])
              rw [haj, hpos]
              simp [hjid, swapPos_left]
            · by_cases h2 : a.id = nbid
              · have hanb : a = nb :=
                  getJob_unique hids hgnb hamem (by rw [h2, hnbid])
                rw [hanb, hp']
                simp [hnbid, hnbid_ne, swapPos_right]
              · simp only [if_neg h1, if_neg h2]
                rcases hqa : a.queuePosition with _ | p
                · rfl
                · rw [Option.map_some']
                  have hafil : a ∈ s.filter (fun k => k.status = Status.queued) :=
                    List.mem_filter.mpr ⟨hamem, by simp [haq]⟩
                  have hpp : p ≠ pos := by
                    intro he
                    have hane : a ≠ j := hanej a hamem h1
                    exact filterMap_nodup_ne Job.queuePosition _ hfilterNodup hq
                      j hjfil a hafil (fun hx => hane hx.symm) pos hpos
                      (by rw [hqa, he])
                  have hpn : p ≠ nbp := by
                    intro he
                    have hane : a ≠ nb := by
                      intro hx
                      rw [hx, hnbid] at h2
                      exact h2 rfl
                    exact filterMap_nodup_ne Job.queuePosition _ hfilterNodup hq
                      nb hnbfil a hafil (fun hx => hane hx.symm) nbp hp'
                      (by rw [hqa, he])
                  rw [swapPos_other hpp hpn]
        have hmempos : pos ∈ queuedPosList s :=
          List.mem_filterMap.mpr ⟨j, hjfil, hpos⟩
        have hmemnbp : nbp ∈ queuedPosList s :=
          List.mem_filterMap.mpr ⟨nb, hnbfil, hp'⟩
        have hperm : (queuedPosList s').Perm (queuedPosList s) := by
          rw [hql, List.perm_iff_count]
          intro v
          have hinj := swapPos_injective pos nbp
          have hstep1 : List.count v ((queuedPosList s).map (swapPos pos nbp))
              = List.count (swapPos pos nbp v) (queuedPosList s) := by
            conv_lhs => rw [← swapPos_invol pos nbp v]
            exact List.count_map_of_injective _ _ hinj _
          rw [hstep1]
          by_cases hv1 : v = pos
          · rw [hv1, swapPos_left,
              List.count_eq_one_of_mem hq hmemnbp,
              List.count_eq_one_of_mem hq hmempos]
          · by_cases hv2 : v = nbp
            · rw [hv2, swapPos_right,
                List.count_eq_one_of_mem hq hmempos,
                List.count_eq_one_of_mem hq hmemnbp]
            · rw [swapPos_other hv1 hv2]
        refine ⟨nbid, nbp, nb, rfl, hnbmem, hnbid, hnbq, hnbp, hnbid_ne,
          ?_, ?_, ?_, hperm, hperm.nodup_iff.mpr hq⟩
        · rintro rfl
          refine ⟨hsu rfl, ?_⟩
          intro k hk hkq kp hkp hklt
          have hkc : neighborCand Direction.up pos k = true := by
            unfold neighborCand
            rw [hkp]
            simp [hkq, hklt]
          have := hmin k hk hkc kp hkp
          simpa [neighborBetter, not_lt] using this
        · rintro rfl
          refine ⟨hsd rfl, ?_⟩
          intro k hk hkq kp hkp hklt
          have hkc : neighborCand Direction.down pos k = true := by
            unfold neighborCand
            rw [hkp]
            simp [hkq, hklt]
          have := hmin k hk hkc kp hkp
          simpa [neighborBetter, not_lt] using this
        · rw [hs'2, List.forall₂_map_right_iff, List.forall₂_same]
          intro a _
          by_cases h1 : a.id = id
          · simp [h1]
          · by_cases h2 : a.id = nbid <;> simp [h1, h2, hnbid_ne]

/-- C6 witness: the theorem applied to the three-job queued store, moving
the middle job up. -/
theorem move_endpoint_spec_witness :
    ∃ j pos, getJob mvStore 2 = some j ∧ j.status = Status.queued ∧
      j.queuePosition = some pos := by
  obtain ⟨j, pos, h1, h2, h3, _⟩ :=
    (move_endpoint_spec mvStore 2 Direction.up (by decide) (by decide)
      (by decide)).2 _ rfl
  exact ⟨j, pos, h1, h2, h3⟩

end BookFactory
